import Mathlib

/-!
Verification of the reference-counted, size-classed bump-allocator arena.

The development shallowly embeds the chunk memory subsystem:
`src/chunk/footer.rs` (flag word, reference counting), `src/chunk/free_list.rs`
(intrusive LIFO free list), `src/chunk/mod.rs` (bump-pointer arithmetic),
`src/chunk/list.rs` (per-size-class chunk list), `src/ptr/mod.rs` and the
typed handles (`boxed.rs`, `ref.rs`, `ref_mut.rs`), and the arena shell
(`src/lib.rs`). Machine integers (`u64`/`usize`) are modelled as natural
numbers below `2 ^ 64`; panics and aborts are modelled as `Option.none`.
-/

namespace Arena64

/-! ### Bit-level model of the chunk footer flag word (src/chunk/footer.rs)

The footer packs the CURRENT flag (bit 63), the FREE flag (bit 62) and the
reference count (bits 0..62) into one `u64`. -/

/-- Bound of the `u64` type: flag words are natural numbers below `2 ^ 64`. -/
def U64 : Nat := 2 ^ 64

/-- Value of the Rust constant `CURRENT_BIT = !(u64::MAX >> 1)`: bit 63. -/
def CURRENT_BIT : Nat := 2 ^ 63

/-- Value of the Rust constant `FREE_BIT = CURRENT_BIT >> 1`: bit 62. -/
def FREE_BIT : Nat := 2 ^ 62

/-- Value of the Rust constant `REF_COUNT = !(CURRENT_BIT | FREE_BIT)`:
the mask of the 62 low reference-count bits, `2 ^ 62 - 1`. -/
def REF_COUNT : Nat := 2 ^ 62 - 1

/-- `ChunkFooter::refs`: `self.flags() & REF_COUNT`. -/
def refsOf (flags : Nat) : Nat := flags &&& REF_COUNT

/-- `ChunkFooter::is_free`: `self.flags() & FREE_BIT != 0`. -/
def isFreeOf (flags : Nat) : Bool := flags &&& FREE_BIT != 0

/-- `ChunkFooter::is_current`: `self.flags() & CURRENT_BIT != 0`. -/
def isCurrentOf (flags : Nat) : Bool := flags &&& CURRENT_BIT != 0

/-- `ChunkFooter::toggle_free`: `*flags ^= FREE_BIT`. -/
def toggleFreeOf (flags : Nat) : Nat := flags ^^^ FREE_BIT

/-- `ChunkFooter::toggle_current`: `*flags ^= CURRENT_BIT`. -/
def toggleCurrentOf (flags : Nat) : Nat := flags ^^^ CURRENT_BIT

/-- `ChunkFooter::add_ref`: reads the previous count, asserts it differs from
`REF_COUNT` (the assertion failure, a fatal abort, is modelled as `none`),
then increments the flag word; returns the previous count and the new word. -/
def addRefOf (flags : Nat) : Option (Nat × Nat) :=
  let previous := refsOf flags
  if previous = REF_COUNT then none
  else some (previous, flags + 1)

/-- `ChunkFooter::remove_ref`: reads the previous count, asserts it is nonzero
(the assertion failure, a fatal abort, is modelled as `none`), then decrements
the flag word; returns the previous count and the new word. -/
def removeRefOf (flags : Nat) : Option (Nat × Nat) :=
  let previous := refsOf flags
  if previous = 0 then none
  else some (previous, flags - 1)

/-! ### Structured chunk state

The footer of one chunk (src/chunk/footer.rs), with the three components of
the packed flag word held in separate fields (`current`, `free`, `refs`).
The theorems `packFlags_refs` … `packFlags_removeRef` below prove that the
split representation tracks the bit-packed word exactly. Addresses
(`start`, `bump`) are `usize` values; `next` and `next_free` are chunk
handles, modelled as indices into the owning list's chunk pool. -/

structure ChunkState where
  size : Nat
  index : Nat
  start : Nat
  bump : Nat
  next : Option Nat
  next_free : Option Nat
  current : Bool
  free : Bool
  refs : Nat
deriving Repr, DecidableEq

/-- Packing of a structured chunk state's flag components into the `u64`
flag word of the footer. -/
def packFlags (c : ChunkState) : Nat :=
  (cond c.current 1 0) * 2 ^ 63 + (cond c.free 1 0) * 2 ^ 62 + c.refs

/-- `ChunkFooter::is_free` on the structured state. -/
def ChunkState.is_free (c : ChunkState) : Bool := c.free

/-- `ChunkFooter::is_current` on the structured state. -/
def ChunkState.is_current (c : ChunkState) : Bool := c.current

/-- `ChunkFooter::toggle_free` on the structured state. -/
def ChunkState.toggle_free (c : ChunkState) : ChunkState :=
  { c with free := !c.free }

/-- `ChunkFooter::toggle_current` on the structured state. -/
def ChunkState.toggle_current (c : ChunkState) : ChunkState :=
  { c with current := !c.current }

/-- `ChunkFooter::add_ref` on the structured state; `none` models the
fatal overflow abort. Returns the previous count. -/
def ChunkState.add_ref (c : ChunkState) : Option (Nat × ChunkState) :=
  if c.refs = REF_COUNT then none
  else some (c.refs, { c with refs := c.refs + 1 })

/-- `ChunkFooter::remove_ref` on the structured state; `none` models the
fatal underflow abort. Returns the previous count. -/
def ChunkState.remove_ref (c : ChunkState) : Option (Nat × ChunkState) :=
  if c.refs = 0 then none
  else some (c.refs, { c with refs := c.refs - 1 })

/-! ### State of one per-size-class chunk list (src/chunk/list.rs)

A `ChunkList` owns its chunks through the `next` chain; all other references
are indices into the pool `chunks` (a chunk handle is its position in the
pool, fixed for the chunk's whole life since chunks are only appended).
`freeTop` is the heap cell holding the top of the intrusive free list
(src/chunk/free_list.rs). Two ghost components support the invariant proofs
without influencing any operation: `handles`, the multiset of chunk indices
referenced by live typed handles, and `freeStack`, the contents of the
intrusive free list from top to bottom. -/

structure ListState where
  size : Nat
  len : Nat
  head : Option Nat
  current : Option Nat
  freeTop : Option Nat
  chunks : List ChunkState
  handles : List Nat
  freeStack : List Nat
deriving Repr, DecidableEq

/-- Dereference a chunk handle in the pool. -/
def ListState.getC (s : ListState) (i : Nat) : Option ChunkState :=
  s.chunks[i]?

/-- Write back a chunk through its handle. -/
def ListState.setC (s : ListState) (i : Nat) (c : ChunkState) : ListState :=
  { s with chunks := s.chunks.set i c }

/-- Error kinds of `FreeList::push` (src/chunk/free_list.rs). -/
inductive FreeError where
  | AlreadyFree
  | IsCurrent
  | RefCount (n : Nat)
deriving Repr, DecidableEq

/-- `FreeList::can_push`: the three state checks, in source order. -/
def FreeList.can_push (c : ChunkState) : Except FreeError Unit :=
  if c.is_free then .error .AlreadyFree
  else if c.is_current then .error .IsCurrent
  else
    let refs := c.refs
    if refs ≠ 0 then .error (.RefCount refs) else .ok ()

/-- `FreeList::peek`: read the top cell without mutation. -/
def FreeList.peek (s : ListState) : Option Nat := s.freeTop

/-- `FreeList::push` on the chunk with handle `i`: check `can_push`, set the
chunk's `next_free` to the old top, toggle its FREE bit, set the top to the
chunk. On a `can_push` failure the error is returned and the state is left
unchanged. `none` models an invalid handle, which cannot occur in the
machine. The ghost `freeStack` records the new stack contents. -/
def FreeList.push (s : ListState) (i : Nat) :
    Option (Except FreeError Unit × ListState) :=
  match s.getC i with
  | none => none
  | some c =>
    match FreeList.can_push c with
    | .error e => some (.error e, s)
    | .ok _ =>
      let next_free := s.freeTop
      let c₁ := { c with next_free := next_free }
      let c₂ := c₁.toggle_free
      let s₁ := s.setC i c₂
      some (.ok (), { s₁ with freeTop := some i, freeStack := i :: s.freeStack })

/-- `FreeList::pop`: take the top; on a non-empty list assert the popped
chunk's FREE bit (assertion failure, "corrupt free list", modelled as the
outer `none`), promote its `next_free` to the new top, clear its
`next_free`, toggle its FREE bit off. -/
def FreeList.pop (s : ListState) : Option (Option Nat × ListState) :=
  match s.freeTop with
  | none => some (none, s)
  | some i =>
    match s.getC i with
    | none => none
    | some c =>
      if c.is_free = false then none
      else
        let next_free := c.next_free
        let c₁ := { c with next_free := none }
        let c₂ := c₁.toggle_free
        let s₁ := s.setC i c₂
        some (some i, { s₁ with freeTop := next_free, freeStack := s.freeStack.tail })

/-! ### Chunk operations (src/chunk/mod.rs) -/

/-- Bitwise complement at `usize` (64-bit) width: the Rust expression `!x`. -/
def not64 (x : Nat) : Nat := (2 ^ 64 - 1) ^^^ x

/-- `Chunk::calc_pointer`: downward bump computation. `checked_sub` failure,
a null result, and a result below `start` all yield `none`. -/
def Chunk.calc_pointer (c : ChunkState) (size align : Nat) : Option Nat :=
  let ptr := c.bump
  if size ≤ ptr then
    let new_ptr := (ptr - size) &&& not64 (align - 1)
    if new_ptr = 0 then none
    else if new_ptr < c.start then none
    else some new_ptr
  else none

/-- `Chunk::can_fit`: `calc_pointer(layout).is_some()`. -/
def Chunk.can_fit (c : ChunkState) (size align : Nat) : Bool :=
  (Chunk.calc_pointer c size align).isSome

/-- `Chunk::alloc_layout`: `calc_pointer` then store the result in `bump`;
the `expect("cannot allocate!")` panic is modelled as `none`. -/
def Chunk.alloc_layout (c : ChunkState) (size align : Nat) :
    Option (Nat × ChunkState) :=
  match Chunk.calc_pointer c size align with
  | none => none
  | some ptr => some (ptr, { c with bump := ptr })

/-- `Chunk::reset_bump`: `bump := start + size`. -/
def Chunk.reset_bump (c : ChunkState) : ChunkState :=
  { c with bump := c.start + c.size }

/-- `Chunk::free`: push this chunk onto its owning free list. -/
def Chunk.free (s : ListState) (i : Nat) :
    Option (Except FreeError Unit × ListState) :=
  FreeList.push s i

/-- Rust `usize::is_power_of_two` (`count_ones() == 1`), equivalently a
nonzero value with no bit in common with its predecessor. -/
def is_power_of_two (n : Nat) : Bool := n != 0 && n &&& (n - 1) == 0

/-- Footer state of a freshly allocated chunk (`ChunkFooter::new`): the bump
cursor starts at `start + size`, all flags and the count are zero. -/
def ChunkState.fresh (size index start : Nat) (next : Option Nat) :
    ChunkState :=
  { size := size, index := index, start := start, bump := start + size,
    next := next, next_free := none, current := false, free := false,
    refs := 0 }

/-! ### Chunk list operations (src/chunk/list.rs) -/

/-- `ChunkList::empty`: asserts the class size is a power of two (modelled
as `none`); no chunks yet. -/
def ChunkList.empty (size : Nat) : Option ListState :=
  if is_power_of_two size then
    some { size := size, len := 0, head := none, current := none,
           freeTop := none, chunks := [], handles := [], freeStack := [] }
  else none

/-- `ChunkList::allocate_chunk`: allocate a fresh chunk (`Chunk::allocate`
with `index = len` and `next = head`), push it onto the free list
(`chunk.free().unwrap()`, failure modelled as `none`), then advance `head`
and `len`. The parameter `start` is the data-region base address returned by
the host allocator; the guard models the host-allocator contract for the
compound layout `Layout::from_size_align(size, size)`: a non-null base,
aligned to `size`, with the data region inside the address space. -/
def ChunkList.allocate_chunk (s : ListState) (start : Nat) :
    Option (Nat × ListState) :=
  if start = 0 ∨ start % s.size ≠ 0 ∨ 2 ^ 64 ≤ start + s.size then none
  else
    let i := s.chunks.length
    let c := ChunkState.fresh s.size s.len start s.head
    let s₁ := { s with chunks := s.chunks ++ [c] }
    match Chunk.free s₁ i with
    | some (.ok _, s₂) =>
        some (i, { s₂ with head := some i, len := s.len + 1 })
    | _ => none

/-- `ChunkList::pop_or_alloc`: if the free list is empty allocate a fresh
chunk (which lands on the free list), then pop; the
`expect("failed to get a chunk")` panic is modelled as `none`. -/
def ChunkList.pop_or_alloc (s : ListState) (start : Nat) :
    Option (Nat × ListState) :=
  let step1 : Option ListState :=
    if (FreeList.peek s).isNone then
      match ChunkList.allocate_chunk s start with
      | none => none
      | some (_, s₁) => some s₁
    else some s
  match step1 with
  | none => none
  | some s₁ =>
    match FreeList.pop s₁ with
    | some (some i, s₂) => some (i, s₂)
    | _ => none

/-- Tail of `ChunkList::get_current` once a replacement is needed: pop or
allocate a chunk, toggle its CURRENT bit on, record it in `current`. -/
def ChunkList.set_new_current (s : ListState) (start : Nat) :
    Option (Nat × ListState) :=
  match ChunkList.pop_or_alloc s start with
  | none => none
  | some (j, s₁) =>
    match s₁.getC j with
    | none => none
    | some cj =>
      some (j, { (s₁.setC j cj.toggle_current) with current := some j })

/-- `ChunkList::get_current`: keep the current chunk if it fits the layout;
otherwise toggle its CURRENT bit off and install a replacement. -/
def ChunkList.get_current (s : ListState) (size align start : Nat) :
    Option (Nat × ListState) :=
  match s.current with
  | some i =>
    match s.getC i with
    | none => none
    | some c =>
      if Chunk.can_fit c size align then some (i, s)
      else ChunkList.set_new_current (s.setC i c.toggle_current) start
  | none => ChunkList.set_new_current s start

/-- Raw pointer into a chunk: the pair of the chunk handle and the address
(`Ptr<T>` of src/ptr/mod.rs). -/
structure Ptr where
  chunk : Nat
  addr : Nat
deriving Repr, DecidableEq

/-- `ChunkList::allocate`: `get_current`, then `alloc_layout` on it, and
return the pointer paired with its chunk. -/
def ChunkList.allocate (s : ListState) (size align start : Nat) :
    Option (Ptr × ListState) :=
  match ChunkList.get_current s size align start with
  | none => none
  | some (i, s₁) =>
    match s₁.getC i with
    | none => none
    | some c =>
      match Chunk.alloc_layout c size align with
      | none => none
      | some (p, c₁) => some (⟨i, p⟩, s₁.setC i c₁)

/-! ### Pointer reference operations (src/ptr/mod.rs) -/

/-- `Ptr::add_ref`: `ChunkFooter::add_ref` on the pointed-to chunk. -/
def Ptr.add_ref (s : ListState) (i : Nat) : Option (Nat × ListState) :=
  match s.getC i with
  | none => none
  | some c =>
    match c.add_ref with
    | none => none
    | some (old, c₁) => some (old, s.setC i c₁)

/-- `Ptr::remove_ref`: decrement the chunk's count (underflow aborts); when
the previous count was 1, reset the bump cursor and, unless the chunk is
current, push it onto its free list (`expect("failed to free chunk")`,
failure modelled as `none`). Returns the previous count. -/
def Ptr.remove_ref (s : ListState) (i : Nat) : Option (Nat × ListState) :=
  match s.getC i with
  | none => none
  | some c =>
    match c.remove_ref with
    | none => none
    | some (old, c₁) =>
      let s₁ := s.setC i c₁
      if old = 1 then
        let s₂ := s₁.setC i (Chunk.reset_bump c₁)
        if c₁.is_current then some (old, s₂)
        else
          match Chunk.free s₂ i with
          | some (.ok _, s₃) => some (old, s₃)
          | _ => none
      else some (old, s₁)

/-! ### Typed handles (src/ptr/boxed.rs, src/ptr/ref.rs, src/ptr/ref_mut.rs)

All three handle types are `repr(transparent)` wrappers around `Ptr`, so at
the level of the chunk state a handle is its pointer. Construction with
`new` increments the chunk's count once; the conversions go through
`into_ptr` (a `ManuallyDrop`, which skips the drop decrement) followed by
`from_ptr` (which does not increment), so a conversion never touches the
chunk state; each `Drop` implementation calls `Ptr::remove_ref` once. -/

/-- `RefMut::new` (also reached by `Boxed::new`): `ptr.add_ref()` then wrap. -/
def RefMut.new (s : ListState) (p : Ptr) : Option (Ptr × ListState) :=
  match Ptr.add_ref s p.chunk with
  | none => none
  | some (_, s₁) => some (p, s₁)

/-- `Boxed::new`: `Self(RefMut::new(ptr))`. -/
def Boxed.new (s : ListState) (p : Ptr) : Option (Ptr × ListState) :=
  RefMut.new s p

/-- `Ref::new` (also reached by `Clone for Ref`): `ptr.add_ref()` then wrap. -/
def Ref.new (s : ListState) (p : Ptr) : Option (Ptr × ListState) :=
  match Ptr.add_ref s p.chunk with
  | none => none
  | some (_, s₁) => some (p, s₁)

/-- `Boxed::into_ref`: `Ref::from_ptr(self.into_ptr())` — `into_ptr` wraps
the handle in `ManuallyDrop` (no drop decrement) and `from_ptr` does not
increment, so the chunk state is returned unchanged. -/
def Boxed.into_ref (p : Ptr) (s : ListState) : Ptr × ListState := (p, s)

/-- `Boxed::into_mut`: `RefMut::from_ptr(self.into_ptr())`; same shape as
`Boxed::into_ref`, no chunk-state effect. -/
def Boxed.into_mut (p : Ptr) (s : ListState) : Ptr × ListState := (p, s)

/-- `RefMut::into_ref`: `Ref::from_ptr(self.into_ptr())`; no chunk-state
effect. -/
def RefMut.into_ref (p : Ptr) (s : ListState) : Ptr × ListState := (p, s)

/-- `Drop for Ref`: `self.ptr.remove_ref()`. -/
def Ref.drop (s : ListState) (p : Ptr) : Option (Nat × ListState) :=
  Ptr.remove_ref s p.chunk

/-- `Drop for RefMut`: `self.ptr.remove_ref()`. -/
def RefMut.drop (s : ListState) (p : Ptr) : Option (Nat × ListState) :=
  Ptr.remove_ref s p.chunk

/-- `Drop for Boxed`: `drop_in_place` on the value (no chunk-state effect),
then the inner `RefMut` drops: `self.ptr.remove_ref()`. -/
def Boxed.drop (s : ListState) (p : Ptr) : Option (Nat × ListState) :=
  RefMut.drop s p

/-! ### The public interface as a step machine

The operations reachable through the arena's public surface for one chunk
list: provisioning chunks (`reserve`), allocating and immediately wrapping
the pointer in a typed handle (the arena's `alloc` / `alloc_layout`),
cloning a `SharedRef`, converting a handle, and dropping a handle. Host
allocator base addresses are parameters of the operations. The fit
precondition of the spec (`layout.size ≤ S`, `layout.align ≤ S`, alignment
a power of two, guaranteed by the arena shell and the `Layout` type) guards
`allocHandle`. -/

inductive Op where
  | reserve (starts : List Nat)
  | allocHandle (size align start : Nat)
  | cloneHandle (i : Nat)
  | convertHandle (i : Nat)
  | dropHandle (i : Nat)
deriving Repr, DecidableEq

/-- `ChunkList::reserve`: allocate `starts.length` fresh chunks in a loop. -/
def ChunkList.reserve (s : ListState) : List Nat → Option ListState
  | [] => some s
  | st :: rest =>
    match ChunkList.allocate_chunk s st with
    | none => none
    | some (_, s₁) => ChunkList.reserve s₁ rest

/-- One public-interface operation. `none` models a fatal abort (or, for the
guards, a call outside the interface contract). -/
def step (s : ListState) : Op → Option ListState
  | .reserve starts => ChunkList.reserve s starts
  | .allocHandle size align start =>
    if is_power_of_two align = true ∧ size ≤ s.size ∧ align ≤ s.size then
      match ChunkList.allocate s size align start with
      | none => none
      | some (p, s₁) =>
        match Boxed.new s₁ p with
        | none => none
        | some (_, s₂) => some { s₂ with handles := p.chunk :: s₂.handles }
    else none
  | .cloneHandle i =>
    if i ∈ s.handles then
      match Ref.new s ⟨i, 0⟩ with
      | none => none
      | some (_, s₁) => some { s₁ with handles := i :: s₁.handles }
    else none
  | .convertHandle i => if i ∈ s.handles then some s else none
  | .dropHandle i =>
    if i ∈ s.handles then
      match Ptr.remove_ref s i with
      | none => none
      | some (_, s₁) => some { s₁ with handles := s₁.handles.erase i }
    else none

/-- States of a chunk list reachable through the public interface. -/
inductive Reachable : ListState → Prop where
  | init (size : Nat) (s : ListState) :
      ChunkList.empty size = some s → Reachable s
  | next (s s' : ListState) (op : Op) :
      Reachable s → step s op = some s' → Reachable s'

/-! ### The inductive invariant -/

/-- Invariant P1 of the specification, for one chunk: a FREE chunk is not
CURRENT, holds no references, and has an empty (fully reset) bump cursor. -/
def P1chunk (c : ChunkState) : Prop :=
  c.free = true → c.current = false ∧ c.refs = 0 ∧ c.bump = c.start + c.size

/-- Invariant P1 of the specification for a whole chunk list. -/
def P1 (s : ListState) : Prop := ∀ c ∈ s.chunks, P1chunk c

/-- Well-formedness of one chunk of a class-`S` list: the recorded class
size, the host-allocator contract on `start`, the bump cursor bounds
(spec invariant 5), and `P1chunk`. -/
def WfChunk (S : Nat) (c : ChunkState) : Prop :=
  c.size = S ∧ c.start ≠ 0 ∧ c.start % S = 0 ∧ c.start + S < 2 ^ 64 ∧
  c.start ≤ c.bump ∧ c.bump ≤ c.start + c.size ∧ P1chunk c

/-- The ghost handle multiset is the refcount book-keeping: every live
handle points into the pool, and each chunk's count is the number of live
handles into it (spec property P3). -/
def HandleRep (s : ListState) : Prop :=
  (∀ i ∈ s.handles, i < s.chunks.length) ∧
  (∀ i c, s.chunks[i]? = some c → c.refs = s.handles.count i)

/-- The `current` cell points at the unique chunk with the CURRENT bit set,
if any (spec invariant 4 / property P2). -/
def CurrentRep (s : ListState) : Prop :=
  (∀ i, s.current = some i → ∃ c, s.chunks[i]? = some c ∧ c.current = true) ∧
  (∀ i c, s.chunks[i]? = some c → c.current = true → s.current = some i)

/-- The ghost `freeStack` is the contents of the intrusive free list: the
top cell holds its head, a chunk is FREE exactly when it is on the stack
(spec invariant 2), and each stack element's `next_free` links to the next
element. -/
def FreeListRep (s : ListState) : Prop :=
  s.freeTop = s.freeStack.head? ∧
  s.freeStack.Nodup ∧
  (∀ j ∈ s.freeStack, j < s.chunks.length) ∧
  (∀ i c, s.chunks[i]? = some c → (c.free = true ↔ i ∈ s.freeStack)) ∧
  (∀ k (hk : k < s.freeStack.length),
     (s.chunks[s.freeStack[k]]?).map ChunkState.next_free =
       some s.freeStack[k + 1]?)

/-- Invariant pieces that do not mention the CURRENT machinery. -/
def InvCore (s : ListState) : Prop :=
  is_power_of_two s.size = true ∧
  (∀ c ∈ s.chunks, WfChunk s.size c) ∧
  HandleRep s ∧ FreeListRep s

/-- The inductive invariant of a chunk list. -/
def Inv (s : ListState) : Prop := InvCore s ∧ CurrentRep s

/-- No chunk of the pool has its CURRENT bit set (the intermediate shape
between displacing a current chunk and installing its replacement). -/
def NoCur (s : ListState) : Prop :=
  ∀ (i : Nat) (c : ChunkState), s.chunks[i]? = some c → c.current = false

/-! ### Behaviour of `FreeList::push` and `FreeList::pop` -/

/-- Result state of a successful `FreeList::push` of chunk `i`, body `c`. -/
def pushedState (s : ListState) (i : Nat) (c : ChunkState) : ListState :=
  { s with
    chunks := s.chunks.set i { c with next_free := s.freeTop, free := true },
    freeTop := some i,
    freeStack := i :: s.freeStack }

/-- Result state of a successful non-empty `FreeList::pop` of chunk `i`,
body `c`. -/
def poppedState (s : ListState) (i : Nat) (c : ChunkState) : ListState :=
  { s with
    chunks := s.chunks.set i { c with next_free := none, free := false },
    freeTop := c.next_free,
    freeStack := s.freeStack.tail }

/-- State after pushing chunk `i` whose written-back body is `b`. -/
def pushedRaw (s : ListState) (i : Nat) (b : ChunkState) : ListState :=
  { s with
    chunks := s.chunks.set i b,
    freeTop := some i,
    freeStack := i :: s.freeStack }

/-! ### The arena shell (src/lib.rs)

The arena keeps a growable vector of chunk lists; the list at index `i`
serves class size `MIN_BLOCK_SIZE * 2 ^ i`. Here the vector is abstracted
by each entry's class size (the chunk-list internals are the `ListState`
machine above; the routing behaviour depends only on the sizes). -/

/-- `MIN_BLOCK_SIZE`: the smallest class size. -/
def MIN_BLOCK_SIZE : Nat := 256

/-- Rust `usize::trailing_zeros` by repeated halving; the fuel is the
64-bit width, so `tzGo 64 0 = 64` exactly as for the machine type. -/
def tzGo : Nat → Nat → Nat
  | 0, _ => 0
  | fuel + 1, n => if n % 2 = 1 then 0 else tzGo fuel (n / 2) + 1

/-- Trailing-zero count of a `usize` value (inputs are below `2 ^ 64`). -/
def trailing_zeros (n : Nat) : Nat := tzGo 64 n

/-- `MIN_BLOCK_POW = MIN_BLOCK_SIZE.trailing_zeros()`. -/
def MIN_BLOCK_POW : Nat := trailing_zeros MIN_BLOCK_SIZE

/-- Bit length (64-bit fuel): `BITS - n.leading_zeros()` for a `usize`. -/
def bitLenGo : Nat → Nat → Nat
  | 0, _ => 0
  | fuel + 1, n => if n = 0 then 0 else bitLenGo fuel (n / 2) + 1

/-- Rust `usize::next_power_of_two`: 1 for `n ≤ 1`, otherwise
`1 << (BITS - (n - 1).leading_zeros())`, two to the bit length of
`n - 1`. -/
def next_power_of_two (n : Nat) : Nat :=
  if n ≤ 1 then 1 else 2 ^ bitLenGo 64 (n - 1)

/-- `index_to_chunk_size`: `1 << (index + MIN_BLOCK_POW)`. -/
def index_to_chunk_size (index : Nat) : Nat := 1 <<< (index + MIN_BLOCK_POW)

/-- `size_to_index`:
`size.next_power_of_two().trailing_zeros().saturating_sub(MIN_BLOCK_POW)`
(truncated subtraction on `Nat` is the saturating subtraction). -/
def size_to_index (size : Nat) : Nat :=
  trailing_zeros (next_power_of_two size) - MIN_BLOCK_POW

/-- `Arena::reserve_next`: extend the vector with the chunk lists of the
next `n` indices, in ascending index order
(`chunks.extend((start..end).map(|index| ChunkList::new(index_to_chunk_size(index))))`). -/
def Arena.reserve_next (a : List Nat) (n : Nat) : List Nat :=
  a ++ (List.range' a.length n).map index_to_chunk_size

/-- `Arena::list_for_size`: compute the index; if it is in range return it,
otherwise grow to length `index + 1` first. Returns the delegation index
together with the (possibly grown) vector. -/
def Arena.list_for_size (a : List Nat) (size : Nat) : Nat × List Nat :=
  let index := size_to_index size
  if index < a.length then (index, a)
  else (index, Arena.reserve_next a (index + 1 - a.length))

/-! ### The claims -/

/-! ### Concrete states for instantiating the claim theorems -/

/-- A concrete in-use chunk: size 256 at start 1024, bump 1280, no flags,
no references. -/
def wChunk : ChunkState := ChunkState.mk 256 0 1024 1280 none none false false 0

/-- A one-chunk list holding `wChunk`, with an empty free list. -/
def wState : ListState := ListState.mk 256 1 (some 0) none none [wChunk] [] []

/-- `wState` after pushing chunk 0 onto the free list. -/
def wStateF : ListState :=
  ListState.mk 256 1 (some 0) none (some 0)
    [ChunkState.mk 256 0 1024 1280 none none false true 0] [] [0]

/-- A concrete chunk holding one live reference. -/
def wChunk1 : ChunkState :=
  ChunkState.mk 256 0 1024 1272 none none false false 1

/-- A one-chunk list holding `wChunk1` and the one live handle into it. -/
def wState1 : ListState :=
  ListState.mk 256 1 (some 0) none none [wChunk1] [0] []

/-- The empty class-256 chunk list. -/
def wEmpty : ListState := ListState.mk 256 0 none none none [] [] []

/-! ## Theorems -/

/-! ### Arithmetic characterisation of the bit operations -/

theorem refsOf_eq_mod (flags : Nat) : refsOf flags = flags % 2 ^ 62 := by
  have h := Nat.and_pow_two_sub_one_eq_mod flags 62
  simpa [refsOf, REF_COUNT] using h

theorem and_two_pow_eq_div_mod (x i : Nat) :
    x &&& 2 ^ i = x / 2 ^ i % 2 * 2 ^ i := by
  rw [Nat.and_two_pow, Nat.testBit_to_div_mod]
  rcases Nat.mod_two_eq_zero_or_one (x / 2 ^ i) with h | h <;> simp [h]

theorem isFreeOf_iff (flags : Nat) :
    isFreeOf flags = true ↔ flags / 2 ^ 62 % 2 = 1 := by
  have h := and_two_pow_eq_div_mod flags 62
  have h2 : flags / 2 ^ 62 % 2 = 0 ∨ flags / 2 ^ 62 % 2 = 1 :=
    Nat.mod_two_eq_zero_or_one _
  constructor
  · intro hf
    rcases h2 with h0 | h1
    · exfalso
      simp only [isFreeOf, FREE_BIT, ne_eq, bne_iff_ne] at hf
      rw [h, h0] at hf
      simp at hf
    · exact h1
  · intro h1
    simp only [isFreeOf, FREE_BIT, bne_iff_ne, ne_eq]
    rw [h, h1]
    norm_num

theorem isCurrentOf_iff (flags : Nat) :
    isCurrentOf flags = true ↔ flags / 2 ^ 63 % 2 = 1 := by
  have h := and_two_pow_eq_div_mod flags 63
  have h2 : flags / 2 ^ 63 % 2 = 0 ∨ flags / 2 ^ 63 % 2 = 1 :=
    Nat.mod_two_eq_zero_or_one _
  constructor
  · intro hf
    rcases h2 with h0 | h1
    · exfalso
      simp only [isCurrentOf, CURRENT_BIT, ne_eq, bne_iff_ne] at hf
      rw [h, h0] at hf
      simp at hf
    · exact h1
  · intro h1
    simp only [isCurrentOf, CURRENT_BIT, bne_iff_ne, ne_eq]
    rw [h, h1]
    norm_num

theorem testBit_xor_two_pow (x i j : Nat) (h : i ≠ j) :
    (x ^^^ 2 ^ i).testBit j = x.testBit j := by
  simp [Nat.testBit_xor, Nat.testBit_two_pow_of_ne h]

theorem testBit_xor_two_pow_self (x i : Nat) :
    (x ^^^ 2 ^ i).testBit i = !x.testBit i := by
  simp [Nat.testBit_xor, Nat.testBit_two_pow_self]

theorem mod_of_xor_two_pow (x i k : Nat) (hki : k ≤ i) :
    (x ^^^ 2 ^ i) % 2 ^ k = x % 2 ^ k := by
  apply Nat.eq_of_testBit_eq
  intro j
  rw [Nat.testBit_mod_two_pow, Nat.testBit_mod_two_pow]
  by_cases hj : j < k
  · have hij : i ≠ j := by omega
    simp [hj, testBit_xor_two_pow x i j hij]
  · simp [hj]

theorem div_two_pow_mod_two_of_xor (x i j : Nat) (hij : i ≠ j) :
    (x ^^^ 2 ^ i) / 2 ^ j % 2 = x / 2 ^ j % 2 := by
  have h := testBit_xor_two_pow x i j hij
  rw [Nat.testBit_to_div_mod, Nat.testBit_to_div_mod] at h
  have h1 := Nat.mod_two_eq_zero_or_one ((x ^^^ 2 ^ i) / 2 ^ j)
  have h2 := Nat.mod_two_eq_zero_or_one (x / 2 ^ j)
  rcases h1 with h1 | h1 <;> rcases h2 with h2 | h2 <;> simp [h1, h2] at h ⊢

theorem div_two_pow_mod_two_of_xor_self (x i : Nat) :
    (x ^^^ 2 ^ i) / 2 ^ i % 2 = 1 - x / 2 ^ i % 2 := by
  have h := testBit_xor_two_pow_self x i
  rw [Nat.testBit_to_div_mod, Nat.testBit_to_div_mod] at h
  have h1 := Nat.mod_two_eq_zero_or_one ((x ^^^ 2 ^ i) / 2 ^ i)
  have h2 := Nat.mod_two_eq_zero_or_one (x / 2 ^ i)
  rcases h1 with h1 | h1 <;> rcases h2 with h2 | h2 <;> simp [h1, h2] at h ⊢

theorem toggleFreeOf_eq (x : Nat) (hx : x < U64) :
    toggleFreeOf x =
      x / 2 ^ 63 * 2 ^ 63 + (1 - x / 2 ^ 62 % 2) * 2 ^ 62 + x % 2 ^ 62 := by
  have hz : (x ^^^ 2 ^ 62) < 2 ^ 64 := Nat.xor_lt_two_pow hx (by norm_num)
  have hmod : (x ^^^ 2 ^ 62) % 2 ^ 62 = x % 2 ^ 62 :=
    mod_of_xor_two_pow x 62 62 le_rfl
  have hmid : (x ^^^ 2 ^ 62) / 2 ^ 62 % 2 = 1 - x / 2 ^ 62 % 2 :=
    div_two_pow_mod_two_of_xor_self x 62
  have hhi : (x ^^^ 2 ^ 62) / 2 ^ 63 % 2 = x / 2 ^ 63 % 2 :=
    div_two_pow_mod_two_of_xor x 62 63 (by omega)
  have hx' : x < 2 ^ 64 := hx
  unfold toggleFreeOf FREE_BIT
  omega

theorem toggleCurrentOf_eq (x : Nat) (hx : x < U64) :
    toggleCurrentOf x =
      (1 - x / 2 ^ 63 % 2) * 2 ^ 63 + x / 2 ^ 62 % 2 * 2 ^ 62 + x % 2 ^ 62 := by
  have hz : (x ^^^ 2 ^ 63) < 2 ^ 64 := Nat.xor_lt_two_pow hx (by norm_num)
  have hmod : (x ^^^ 2 ^ 63) % 2 ^ 62 = x % 2 ^ 62 :=
    mod_of_xor_two_pow x 63 62 (by omega)
  have hmid : (x ^^^ 2 ^ 63) / 2 ^ 62 % 2 = x / 2 ^ 62 % 2 :=
    div_two_pow_mod_two_of_xor x 63 62 (by omega)
  have hhi : (x ^^^ 2 ^ 63) / 2 ^ 63 % 2 = 1 - x / 2 ^ 63 % 2 :=
    div_two_pow_mod_two_of_xor_self x 63
  have hx' : x < 2 ^ 64 := hx
  unfold toggleCurrentOf CURRENT_BIT
  omega

/-! ### Behaviour of the packed reference-count operations -/

theorem addRefOf_eq_none_iff (x : Nat) :
    addRefOf x = none ↔ refsOf x = REF_COUNT := by
  by_cases h : refsOf x = REF_COUNT <;> simp [addRefOf, h]

theorem removeRefOf_eq_none_iff (x : Nat) :
    removeRefOf x = none ↔ refsOf x = 0 := by
  by_cases h : refsOf x = 0 <;> simp [removeRefOf, h]

theorem addRefOf_sound (x prev x' : Nat) (hx : x < U64)
    (h : addRefOf x = some (prev, x')) :
    prev = refsOf x ∧ x' = x + 1 ∧ refsOf x' = refsOf x + 1 ∧
    x' &&& FREE_BIT = x &&& FREE_BIT ∧
    x' &&& CURRENT_BIT = x &&& CURRENT_BIT ∧
    isFreeOf x' = isFreeOf x ∧ isCurrentOf x' = isCurrentOf x ∧ x' < U64 := by
  simp only [addRefOf] at h
  split at h
  · exact absurd h (by simp)
  · rename_i hne
    obtain ⟨hp, hx'⟩ : refsOf x = prev ∧ x + 1 = x' := by
      constructor <;> · injection h with h2; injection h2 <;> assumption
    subst hp
    subst hx'
    have hrx := refsOf_eq_mod x
    have hrx1 := refsOf_eq_mod (x + 1)
    have hRC : REF_COUNT = 2 ^ 62 - 1 := rfl
    rw [hrx, hRC] at hne
    have hxU : x < 2 ^ 64 := hx
    have hmod : (x + 1) % 2 ^ 62 = x % 2 ^ 62 + 1 := by omega
    have hfb : (x + 1) &&& FREE_BIT = x &&& FREE_BIT := by
      have h1 := and_two_pow_eq_div_mod (x + 1) 62
      have h2 := and_two_pow_eq_div_mod x 62
      have hdiv : (x + 1) / 2 ^ 62 % 2 = x / 2 ^ 62 % 2 := by omega
      rw [show FREE_BIT = 2 ^ 62 from rfl, h1, h2, hdiv]
    have hcb : (x + 1) &&& CURRENT_BIT = x &&& CURRENT_BIT := by
      have h1 := and_two_pow_eq_div_mod (x + 1) 63
      have h2 := and_two_pow_eq_div_mod x 63
      have hdiv : (x + 1) / 2 ^ 63 % 2 = x / 2 ^ 63 % 2 := by omega
      rw [show CURRENT_BIT = 2 ^ 63 from rfl, h1, h2, hdiv]
    refine ⟨rfl, rfl, ?_, hfb, hcb, ?_, ?_, ?_⟩
    · rw [hrx, hrx1, hmod]
    · unfold isFreeOf
      rw [hfb]
    · unfold isCurrentOf
      rw [hcb]
    · show x + 1 < 2 ^ 64
      omega

theorem removeRefOf_sound (x prev x' : Nat) (hx : x < U64)
    (h : removeRefOf x = some (prev, x')) :
    prev = refsOf x ∧ x' = x - 1 ∧ refsOf x' = refsOf x - 1 ∧
    x' &&& FREE_BIT = x &&& FREE_BIT ∧
    x' &&& CURRENT_BIT = x &&& CURRENT_BIT ∧
    isFreeOf x' = isFreeOf x ∧ isCurrentOf x' = isCurrentOf x ∧ x' < U64 := by
  simp only [removeRefOf] at h
  split at h
  · exact absurd h (by simp)
  · rename_i hne
    obtain ⟨hp, hx'⟩ : refsOf x = prev ∧ x - 1 = x' := by
      constructor <;> · injection h with h2; injection h2 <;> assumption
    subst hp
    subst hx'
    have hrx := refsOf_eq_mod x
    have hrx1 := refsOf_eq_mod (x - 1)
    rw [hrx] at hne
    have hxU : x < 2 ^ 64 := hx
    have hpos : x % 2 ^ 62 ≠ 0 := hne
    have hmod : (x - 1) % 2 ^ 62 = x % 2 ^ 62 - 1 := by omega
    have hfb : (x - 1) &&& FREE_BIT = x &&& FREE_BIT := by
      have h1 := and_two_pow_eq_div_mod (x - 1) 62
      have h2 := and_two_pow_eq_div_mod x 62
      have hdiv : (x - 1) / 2 ^ 62 % 2 = x / 2 ^ 62 % 2 := by omega
      rw [show FREE_BIT = 2 ^ 62 from rfl, h1, h2, hdiv]
    have hcb : (x - 1) &&& CURRENT_BIT = x &&& CURRENT_BIT := by
      have h1 := and_two_pow_eq_div_mod (x - 1) 63
      have h2 := and_two_pow_eq_div_mod x 63
      have hdiv : (x - 1) / 2 ^ 63 % 2 = x / 2 ^ 63 % 2 := by omega
      rw [show CURRENT_BIT = 2 ^ 63 from rfl, h1, h2, hdiv]
    refine ⟨rfl, rfl, ?_, hfb, hcb, ?_, ?_, ?_⟩
    · rw [hrx, hrx1, hmod]
    · unfold isFreeOf
      rw [hfb]
    · unfold isCurrentOf
      rw [hcb]
    · show x - 1 < 2 ^ 64
      omega

/-! Correspondence between the structured state and the packed flag word. -/

theorem packFlags_lt (c : ChunkState) (h : c.refs < 2 ^ 62) :
    packFlags c < U64 := by
  unfold packFlags U64
  cases c.current <;> cases c.free <;> simp <;> omega

theorem packFlags_refs (c : ChunkState) (h : c.refs < 2 ^ 62) :
    refsOf (packFlags c) = c.refs := by
  rw [refsOf_eq_mod]
  unfold packFlags
  cases c.current <;> cases c.free <;> simp <;> omega

theorem packFlags_is_free (c : ChunkState) (h : c.refs < 2 ^ 62) :
    isFreeOf (packFlags c) = c.is_free := by
  have hiff := isFreeOf_iff (packFlags c)
  have hdm : packFlags c / 2 ^ 62 % 2 = cond c.free 1 0 := by
    unfold packFlags
    cases c.current <;> cases c.free <;> simp <;> omega
  unfold ChunkState.is_free
  cases hc : c.free
  · rw [hc] at hdm
    simp only [cond] at hdm
    rw [Bool.eq_false_iff]
    intro hcontra
    rw [hiff] at hcontra
    omega
  · rw [hc] at hdm
    simp only [cond] at hdm
    rw [hiff]
    omega

theorem packFlags_is_current (c : ChunkState) (h : c.refs < 2 ^ 62) :
    isCurrentOf (packFlags c) = c.is_current := by
  have hiff := isCurrentOf_iff (packFlags c)
  have hdm : packFlags c / 2 ^ 63 % 2 = cond c.current 1 0 := by
    unfold packFlags
    cases c.current <;> cases c.free <;> simp <;> omega
  unfold ChunkState.is_current
  cases hc : c.current
  · rw [hc] at hdm
    simp only [cond] at hdm
    rw [Bool.eq_false_iff]
    intro hcontra
    rw [hiff] at hcontra
    omega
  · rw [hc] at hdm
    simp only [cond] at hdm
    rw [hiff]
    omega

theorem packFlags_toggle_free (c : ChunkState) (h : c.refs < 2 ^ 62) :
    toggleFreeOf (packFlags c) = packFlags c.toggle_free := by
  have hlt := packFlags_lt c h
  rw [toggleFreeOf_eq _ hlt]
  unfold packFlags ChunkState.toggle_free
  cases c.current <;> cases c.free <;> simp <;> omega

theorem packFlags_toggle_current (c : ChunkState) (h : c.refs < 2 ^ 62) :
    toggleCurrentOf (packFlags c) = packFlags c.toggle_current := by
  have hlt := packFlags_lt c h
  rw [toggleCurrentOf_eq _ hlt]
  unfold packFlags ChunkState.toggle_current
  cases c.current <;> cases c.free <;> simp <;> omega

theorem packFlags_addRef (c : ChunkState) (h : c.refs < 2 ^ 62) :
    addRefOf (packFlags c) =
      (c.add_ref).map (fun pc => (pc.1, packFlags pc.2)) := by
  have hr := packFlags_refs c h
  unfold ChunkState.add_ref
  by_cases hmax : c.refs = REF_COUNT
  · simp [addRefOf, hr, hmax]
  · simp only [addRefOf, hr, hmax, if_false, Option.map_some]
    have : packFlags c + 1 = packFlags { c with refs := c.refs + 1 } := by
      unfold packFlags
      cases c.current <;> cases c.free <;> simp <;> omega
    rw [this]
    rfl

theorem packFlags_removeRef (c : ChunkState) (h : c.refs < 2 ^ 62) :
    removeRefOf (packFlags c) =
      (c.remove_ref).map (fun pc => (pc.1, packFlags pc.2)) := by
  have hr := packFlags_refs c h
  unfold ChunkState.remove_ref
  by_cases hzero : c.refs = 0
  · simp [removeRefOf, hr, hzero]
  · simp only [removeRefOf, hr, hzero, if_false, Option.map_some]
    have : packFlags c - 1 = packFlags { c with refs := c.refs - 1 } := by
      unfold packFlags
      cases c.current <;> cases c.free <;> simp <;> omega
    rw [this]
    rfl

/-! ### Basic state-access lemmas -/

theorem length_setC (s : ListState) (i : Nat) (c : ChunkState) :
    (s.setC i c).chunks.length = s.chunks.length := by
  simp [ListState.setC]

theorem getC_setC_self (s : ListState) (i : Nat) (c : ChunkState)
    (h : i < s.chunks.length) : (s.setC i c).getC i = some c := by
  simp [ListState.getC, ListState.setC, List.getElem?_set_self h]

theorem getC_setC_ne (s : ListState) (i j : Nat) (c : ChunkState)
    (h : i ≠ j) : (s.setC i c).getC j = s.getC j := by
  simp [ListState.getC, ListState.setC, List.getElem?_set_ne h]

theorem getC_lt (s : ListState) (i : Nat) (c : ChunkState)
    (h : s.getC i = some c) : i < s.chunks.length := by
  simpa [ListState.getC] using (List.getElem?_eq_some.mp h).1

theorem can_push_ok (c : ChunkState) (hfree : c.free = false)
    (hcur : c.current = false) (hrefs : c.refs = 0) :
    FreeList.can_push c = .ok () := by
  simp [FreeList.can_push, ChunkState.is_free, ChunkState.is_current,
        hfree, hcur, hrefs]

theorem push_ok (s : ListState) (i : Nat) (c : ChunkState)
    (hc : s.getC i = some c) (hfree : c.free = false)
    (hcur : c.current = false) (hrefs : c.refs = 0) :
    FreeList.push s i = some (.ok (), pushedState s i c) := by
  simp only [FreeList.push, hc]
  rw [can_push_ok c hfree hcur hrefs]
  simp [pushedState, ChunkState.toggle_free, ListState.setC, hfree]

theorem push_err_already_free (s : ListState) (i : Nat) (c : ChunkState)
    (hc : s.getC i = some c) (hfree : c.free = true) :
    FreeList.push s i = some (.error .AlreadyFree, s) := by
  simp [FreeList.push, hc, FreeList.can_push, ChunkState.is_free, hfree]

theorem push_err_is_current (s : ListState) (i : Nat) (c : ChunkState)
    (hc : s.getC i = some c) (hfree : c.free = false)
    (hcur : c.current = true) :
    FreeList.push s i = some (.error .IsCurrent, s) := by
  simp [FreeList.push, hc, FreeList.can_push, ChunkState.is_free,
        ChunkState.is_current, hfree, hcur]

theorem push_err_refcount (s : ListState) (i : Nat) (c : ChunkState)
    (hc : s.getC i = some c) (hfree : c.free = false)
    (hcur : c.current = false) (hrefs : c.refs ≠ 0) :
    FreeList.push s i = some (.error (.RefCount c.refs), s) := by
  simp [FreeList.push, hc, FreeList.can_push, ChunkState.is_free,
        ChunkState.is_current, hfree, hcur, hrefs]

theorem pop_empty (s : ListState) (h : s.freeTop = none) :
    FreeList.pop s = some (none, s) := by
  simp [FreeList.pop, h]

theorem pop_assert_fail (s : ListState) (i : Nat) (c : ChunkState)
    (hTop : s.freeTop = some i) (hc : s.getC i = some c)
    (hfree : c.free = false) :
    FreeList.pop s = none := by
  simp [FreeList.pop, hTop, hc, ChunkState.is_free, hfree]

theorem pop_some (s : ListState) (i : Nat) (c : ChunkState)
    (hTop : s.freeTop = some i) (hc : s.getC i = some c)
    (hfree : c.free = true) :
    FreeList.pop s = some (some i, poppedState s i c) := by
  simp [FreeList.pop, hTop, hc, ChunkState.is_free, hfree, poppedState,
        ChunkState.toggle_free, ListState.setC]

/-! ### Invariant preservation: push and pop -/

theorem mem_of_getElem? {l : List ChunkState} {k : Nat} {a : ChunkState}
    (h : l[k]? = some a) : a ∈ l := by
  obtain ⟨hk, he⟩ := List.getElem?_eq_some.mp h
  exact he ▸ List.getElem_mem hk

theorem pushed_getC_self (s : ListState) (i : Nat) (c : ChunkState)
    (h : i < s.chunks.length) :
    (pushedState s i c).getC i =
      some { c with next_free := s.freeTop, free := true } := by
  simp [pushedState, ListState.getC, List.getElem?_set_self h]

theorem pushed_getC_ne (s : ListState) (i j : Nat) (c : ChunkState)
    (h : i ≠ j) : (pushedState s i c).getC j = s.getC j := by
  simp [pushedState, ListState.getC, List.getElem?_set_ne h]

theorem invCore_pushedState (s : ListState) (i : Nat) (c : ChunkState)
    (hinv : InvCore s) (hc : s.getC i = some c)
    (hfree : c.free = false) (hcur : c.current = false) (hrefs : c.refs = 0)
    (hbump : c.bump = c.start + c.size) :
    InvCore (pushedState s i c) := by
  obtain ⟨hpow, hwf, ⟨hhb, hhc⟩, hft, hnd, hfb, hfm, hfl⟩ := hinv
  have hlen : i < s.chunks.length := getC_lt s i c hc
  have hni : i ∉ s.freeStack := by
    intro hmem
    have := (hfm i c hc).mpr hmem
    rw [hfree] at this
    exact Bool.false_ne_true this
  refine ⟨hpow, ?_, ⟨?_, ?_⟩, ?_, ?_, ?_, ?_, ?_⟩
  · -- all chunks well-formed
    intro c' hc'
    rcases List.mem_or_eq_of_mem_set hc' with hmem | heq
    · exact hwf c' hmem
    · subst heq
      obtain ⟨h1, h2, h3, h4, h5, h6, _⟩ := hwf c (mem_of_getElem? hc)
      exact ⟨h1, h2, h3, h4, by simpa using h5, by simpa using h6,
        fun _ => ⟨hcur, hrefs, by simpa [h1] using hbump⟩⟩
  · -- handle bounds
    intro j hj
    simpa [pushedState] using hhb j hj
  · -- refcount book-keeping
    intro j c' hj
    by_cases hij : i = j
    · subst hij
      have : c' = { c with next_free := s.freeTop, free := true } := by
        have := pushed_getC_self s i c hlen
        rw [ListState.getC] at this
        rw [this] at hj
        exact (Option.some.injEq _ _).mp hj.symm
      subst this
      simpa [pushedState] using hhc i c hc
    · have : s.chunks[j]? = some c' := by
        have := pushed_getC_ne s i j c hij
        rw [ListState.getC, ListState.getC] at this
        rw [← this]
        exact hj
      simpa [pushedState] using hhc j c' this
  · -- top cell holds the stack head
    simp [pushedState]
  · -- stack has no duplicates
    simpa [pushedState, hni] using hnd
  · -- stack entries in bounds
    intro j hj
    simp only [pushedState] at hj
    rcases List.mem_cons.mp hj with h | h
    · subst h
      simpa [pushedState] using hlen
    · simpa [pushedState] using hfb j h
  · -- FREE bit iff on the stack
    intro j c' hj
    by_cases hij : i = j
    · subst hij
      have : c' = { c with next_free := s.freeTop, free := true } := by
        have := pushed_getC_self s i c hlen
        rw [ListState.getC] at this
        rw [this] at hj
        exact (Option.some.injEq _ _).mp hj.symm
      subst this
      simp [pushedState]
    · have hj' : s.chunks[j]? = some c' := by
        have := pushed_getC_ne s i j c hij
        rw [ListState.getC, ListState.getC] at this
        rw [← this]
        exact hj
      have := hfm j c' hj'
      simp only [pushedState, List.mem_cons]
      rw [this]
      constructor
      · exact fun h => Or.inr h
      · rintro (h | h)
        · exact absurd h.symm hij
        · exact h
  · -- stack links
    intro k hk
    simp only [pushedState] at hk ⊢
    match k with
    | 0 =>
      simp only [List.getElem_cons_zero, List.getElem?_cons_succ,
        List.getElem?_cons_zero]
      have := pushed_getC_self s i c hlen
      rw [ListState.getC] at this
      simp only [pushedState] at this
      rw [this]
      simp [hft, List.head?_eq_getElem?]
    | k + 1 =>
      have hk' : k < s.freeStack.length := by
        simpa using hk
      have hne : i ≠ s.freeStack[k] := by
        intro h
        exact hni (h ▸ List.getElem_mem hk')
      simp only [List.getElem_cons_succ, List.getElem?_cons_succ]
      have heq := pushed_getC_ne s i (s.freeStack[k]) c hne
      rw [ListState.getC, ListState.getC] at heq
      simp only [pushedState] at heq
      rw [heq]
      exact hfl k hk'

theorem popped_getC_self (s : ListState) (i : Nat) (c : ChunkState)
    (h : i < s.chunks.length) :
    (poppedState s i c).getC i =
      some { c with next_free := none, free := false } := by
  simp [poppedState, ListState.getC, List.getElem?_set_self h]

theorem popped_getC_ne (s : ListState) (i j : Nat) (c : ChunkState)
    (h : i ≠ j) : (poppedState s i c).getC j = s.getC j := by
  simp [poppedState, ListState.getC, List.getElem?_set_ne h]

theorem pop_top_facts (s : ListState) (i : Nat) (c : ChunkState)
    (hinv : InvCore s) (hTop : s.freeTop = some i) (hc : s.getC i = some c) :
    c.free = true ∧ c.current = false ∧ c.refs = 0 ∧
    c.bump = c.start + c.size := by
  obtain ⟨hpow, hwf, _, hft, hnd, hfb, hfm, hfl⟩ := hinv
  have hhead : s.freeStack.head? = some i := hft ▸ hTop
  obtain ⟨rest, hfs⟩ := List.head?_eq_some_iff.mp hhead
  have hmem : i ∈ s.freeStack := by
    rw [hfs]
    exact List.mem_cons_self ..
  have hfree : c.free = true := (hfm i c hc).mpr hmem
  obtain ⟨_, _, _, _, _, _, hp1⟩ := hwf c (mem_of_getElem? hc)
  obtain ⟨h1, h2, h3⟩ := hp1 hfree
  exact ⟨hfree, h1, h2, h3⟩

theorem invCore_poppedState (s : ListState) (i : Nat) (c : ChunkState)
    (hinv : InvCore s) (hTop : s.freeTop = some i) (hc : s.getC i = some c) :
    InvCore (poppedState s i c) := by
  obtain ⟨hpow, hwf, ⟨hhb, hhc⟩, hft, hnd, hfb, hfm, hfl⟩ := hinv
  have hlen : i < s.chunks.length := getC_lt s i c hc
  have hhead : s.freeStack.head? = some i := hft ▸ hTop
  obtain ⟨rest, hfs⟩ := List.head?_eq_some_iff.mp hhead
  have hnotrest : i ∉ rest := by
    rw [hfs] at hnd
    exact (List.nodup_cons.mp hnd).1
  have hlen0 : 0 < s.freeStack.length := by
    rw [hfs]
    simp
  have hnext : c.next_free = rest.head? := by
    have h0 := hfl 0 hlen0
    rw [ListState.getC] at hc
    have hfl0 : s.freeStack[0] = i := by
      have h01 : s.freeStack[0]? = some i := by
        rw [← List.head?_eq_getElem?]
        exact hhead
      rw [List.getElem?_eq_getElem hlen0] at h01
      exact Option.some.inj h01
    rw [hfl0, hc] at h0
    have h1 : s.freeStack[0 + 1]? = rest.head? := by
      rw [hfs, List.getElem?_cons_succ, List.head?_eq_getElem?]
    rw [h1] at h0
    have h02 : some c.next_free = some rest.head? := h0
    exact Option.some.inj h02
  refine ⟨hpow, ?_, ⟨?_, ?_⟩, ?_, ?_, ?_, ?_, ?_⟩
  · -- all chunks well-formed
    intro c' hc'
    rcases List.mem_or_eq_of_mem_set hc' with hmem | heq
    · exact hwf c' hmem
    · subst heq
      obtain ⟨h1, h2, h3, h4, h5, h6, _⟩ := hwf c (mem_of_getElem? hc)
      exact ⟨h1, h2, h3, h4, by exact h5, by exact h6,
        fun h => absurd h (by simp)⟩
  · -- handle bounds
    intro j hj
    simpa [poppedState] using hhb j hj
  · -- refcount book-keeping
    intro j c' hj
    by_cases hij : i = j
    · subst hij
      have hg := popped_getC_self s i c hlen
      rw [ListState.getC] at hg
      rw [hg] at hj
      have hceq := Option.some.inj hj
      rw [← hceq]
      exact hhc i c hc
    · have hj' : s.chunks[j]? = some c' := by
        have heq := popped_getC_ne s i j c hij
        rw [ListState.getC, ListState.getC] at heq
        rw [← heq]
        exact hj
      simpa [poppedState] using hhc j c' hj'
  · -- top cell holds the stack head
    simp only [poppedState, hfs, List.tail_cons]
    exact hnext
  · -- stack has no duplicates
    simp only [poppedState, hfs, List.tail_cons]
    rw [hfs] at hnd
    exact (List.nodup_cons.mp hnd).2
  · -- stack entries in bounds
    intro j hj
    simp only [poppedState, hfs, List.tail_cons] at hj
    have hj2 : j ∈ s.freeStack := by
      rw [hfs]
      exact List.mem_cons_of_mem _ hj
    simpa [poppedState] using hfb j hj2
  · -- FREE bit iff on the stack
    intro j c' hj
    simp only [poppedState, hfs, List.tail_cons] at hj ⊢
    by_cases hij : i = j
    · subst hij
      have hg := popped_getC_self s i c hlen
      rw [ListState.getC] at hg
      simp only [poppedState] at hg
      rw [hg] at hj
      have hceq := Option.some.inj hj
      rw [← hceq]
      simpa using hnotrest
    · have hj' : s.chunks[j]? = some c' := by
        have heq := popped_getC_ne s i j c hij
        rw [ListState.getC, ListState.getC] at heq
        simp only [poppedState] at heq
        rw [← heq]
        exact hj
      have hiff := hfm j c' hj'
      rw [hiff, hfs]
      simp only [List.mem_cons]
      constructor
      · rintro (h | h)
        · exact absurd h.symm hij
        · exact h
      · exact fun h => Or.inr h
  · -- stack links
    intro k hk
    simp only [poppedState, hfs, List.tail_cons] at hk ⊢
    have hk1 : k + 1 < s.freeStack.length := by
      rw [hfs]
      simpa using hk
    have hv1 : s.freeStack[k + 1]? = rest[k]? := by
      rw [hfs, List.getElem?_cons_succ]
    have hval : s.freeStack[k + 1] = rest[k] := by
      rw [List.getElem?_eq_getElem hk1, List.getElem?_eq_getElem hk] at hv1
      exact Option.some.inj hv1
    have hne : i ≠ rest[k] := fun h => hnotrest (h ▸ List.getElem_mem hk)
    have heq := popped_getC_ne s i (rest[k]) c hne
    rw [ListState.getC, ListState.getC] at heq
    simp only [poppedState] at heq
    rw [heq, ← hval]
    have hres := hfl (k + 1) hk1
    rw [hres, hfs, List.getElem?_cons_succ]

/-- Push does not touch any CURRENT bit nor the `current` cell. -/
theorem currentRep_pushedState (s : ListState) (i : Nat) (c : ChunkState)
    (hc : s.getC i = some c) (hrep : CurrentRep s) :
    CurrentRep (pushedState s i c) := by
  obtain ⟨h1, h2⟩ := hrep
  have hlen : i < s.chunks.length := getC_lt s i c hc
  constructor
  · intro j hj
    simp only [pushedState] at hj
    obtain ⟨c', hc', hcc⟩ := h1 j hj
    by_cases hij : i = j
    · subst hij
      rw [ListState.getC] at hc
      have hceq : c = c' := by
        rw [hc] at hc'
        exact Option.some.inj hc'
      refine ⟨{ c with next_free := s.freeTop, free := true }, ?_, ?_⟩
      · have hg := pushed_getC_self s i c hlen
        rw [ListState.getC] at hg
        exact hg
      · show c.current = true
        rw [hceq]
        exact hcc
    · refine ⟨c', ?_, hcc⟩
      have heq := pushed_getC_ne s i j c hij
      rw [ListState.getC, ListState.getC] at heq
      simp only [pushedState] at heq ⊢
      rw [heq]
      exact hc'
  · intro j c' hj hcc
    simp only [pushedState]
    by_cases hij : i = j
    · subst hij
      have hg := pushed_getC_self s i c hlen
      rw [ListState.getC] at hg
      rw [hg] at hj
      have hceq := Option.some.inj hj
      apply h2 i c hc
      show c.current = true
      have : c'.current = c.current := by
        rw [← hceq]
      rw [← this]
      exact hcc
    · have heq := pushed_getC_ne s i j c hij
      rw [ListState.getC, ListState.getC] at heq
      rw [heq] at hj
      exact h2 j c' hj hcc

/-- Pop does not touch any CURRENT bit nor the `current` cell. -/
theorem currentRep_poppedState (s : ListState) (i : Nat) (c : ChunkState)
    (hc : s.getC i = some c) (hrep : CurrentRep s) :
    CurrentRep (poppedState s i c) := by
  obtain ⟨h1, h2⟩ := hrep
  have hlen : i < s.chunks.length := getC_lt s i c hc
  constructor
  · intro j hj
    simp only [poppedState] at hj
    obtain ⟨c', hc', hcc⟩ := h1 j hj
    by_cases hij : i = j
    · subst hij
      rw [ListState.getC] at hc
      have hceq : c = c' := by
        rw [hc] at hc'
        exact Option.some.inj hc'
      refine ⟨{ c with next_free := none, free := false }, ?_, ?_⟩
      · have hg := popped_getC_self s i c hlen
        rw [ListState.getC] at hg
        exact hg
      · show c.current = true
        rw [hceq]
        exact hcc
    · refine ⟨c', ?_, hcc⟩
      have heq := popped_getC_ne s i j c hij
      rw [ListState.getC, ListState.getC] at heq
      simp only [poppedState] at heq ⊢
      rw [heq]
      exact hc'
  · intro j c' hj hcc
    simp only [poppedState]
    by_cases hij : i = j
    · subst hij
      have hg := popped_getC_self s i c hlen
      rw [ListState.getC] at hg
      rw [hg] at hj
      have hceq := Option.some.inj hj
      apply h2 i c hc
      show c.current = true
      have : c'.current = c.current := by
        rw [← hceq]
      rw [← this]
      exact hcc
    · have heq := popped_getC_ne s i j c hij
      rw [ListState.getC, ListState.getC] at heq
      rw [heq] at hj
      exact h2 j c' hj hcc

theorem noCur_pushedState (s : ListState) (i : Nat) (c : ChunkState)
    (hc : s.getC i = some c) (hnc : NoCur s) :
    NoCur (pushedState s i c) := by
  intro j c' hj
  have hlen : i < s.chunks.length := getC_lt s i c hc
  by_cases hij : i = j
  · subst hij
    have hg := pushed_getC_self s i c hlen
    rw [ListState.getC] at hg
    rw [hg] at hj
    have hceq := Option.some.inj hj
    have : c'.current = c.current := by
      rw [← hceq]
    rw [this]
    exact hnc i c hc
  · have heq := pushed_getC_ne s i j c hij
    rw [ListState.getC, ListState.getC] at heq
    rw [heq] at hj
    exact hnc j c' hj

theorem noCur_poppedState (s : ListState) (i : Nat) (c : ChunkState)
    (hc : s.getC i = some c) (hnc : NoCur s) :
    NoCur (poppedState s i c) := by
  intro j c' hj
  have hlen : i < s.chunks.length := getC_lt s i c hc
  by_cases hij : i = j
  · subst hij
    have hg := popped_getC_self s i c hlen
    rw [ListState.getC] at hg
    rw [hg] at hj
    have hceq := Option.some.inj hj
    have : c'.current = c.current := by
      rw [← hceq]
    rw [this]
    exact hnc i c hc
  · have heq := popped_getC_ne s i j c hij
    rw [ListState.getC, ListState.getC] at heq
    rw [heq] at hj
    exact hnc j c' hj

/-! ### Invariant preservation: chunk provisioning -/

theorem fresh_getC (s : ListState) (c : ChunkState) :
    ({ s with chunks := s.chunks ++ [c] } : ListState).getC s.chunks.length =
      some c := by
  simp [ListState.getC]

/-- Successful `ChunkList::allocate_chunk` computed: append the fresh chunk,
push it, then record the new `head` and `len`. -/
theorem allocate_chunk_eq (s : ListState) (start : Nat)
    (h0 : start ≠ 0) (hmod : start % s.size = 0)
    (hlt : start + s.size < 2 ^ 64) :
    ChunkList.allocate_chunk s start =
      some (s.chunks.length,
        { pushedState
            { s with chunks :=
                s.chunks ++ [ChunkState.fresh s.size s.len start s.head] }
            s.chunks.length (ChunkState.fresh s.size s.len start s.head) with
          head := some s.chunks.length,
          len := s.len + 1 }) := by
  have hg : ¬(start = 0 ∨ start % s.size ≠ 0 ∨ 2 ^ 64 ≤ start + s.size) := by
    push_neg
    refine ⟨h0, hmod, by omega⟩
  simp only [ChunkList.allocate_chunk, if_neg hg]
  have hpush := push_ok
    ({ s with chunks := s.chunks ++ [ChunkState.fresh s.size s.len start s.head] })
    s.chunks.length (ChunkState.fresh s.size s.len start s.head)
    (fresh_getC s _) rfl rfl rfl
  rw [Chunk.free, hpush]

theorem invCore_append_fresh (s : ListState) (start : Nat) (hinv : InvCore s)
    (h0 : start ≠ 0) (hmod : start % s.size = 0)
    (hlt : start + s.size < 2 ^ 64) :
    InvCore { s with chunks :=
      s.chunks ++ [ChunkState.fresh s.size s.len start s.head] } := by
  obtain ⟨hpow, hwf, ⟨hhb, hhc⟩, hft, hnd, hfb, hfm, hfl⟩ := hinv
  refine ⟨hpow, ?_, ⟨?_, ?_⟩, hft, hnd, ?_, ?_, ?_⟩
  · -- all chunks well-formed
    intro c' hc'
    rcases List.mem_append.mp hc' with hmem | hmem
    · exact hwf c' hmem
    · have : c' = ChunkState.fresh s.size s.len start s.head := by
        simpa using hmem
      subst this
      exact ⟨rfl, h0, hmod, hlt, by simp [ChunkState.fresh],
        by simp [ChunkState.fresh], fun h => absurd h (by simp [ChunkState.fresh])⟩
  · -- handle bounds
    intro j hj
    have := hhb j hj
    simp only [List.length_append, List.length_cons, List.length_nil]
    omega
  · -- refcount book-keeping
    intro j c' hj
    by_cases hjl : j < s.chunks.length
    · have : s.chunks[j]? = some c' := by
        rw [← List.getElem?_append_left hjl]
        exact hj
      exact hhc j c' this
    · by_cases hje : j = s.chunks.length
      · subst hje
        have hg := fresh_getC s (ChunkState.fresh s.size s.len start s.head)
        rw [ListState.getC] at hg
        rw [hg] at hj
        have hceq := Option.some.inj hj
        rw [← hceq]
        show (0 : Nat) = s.handles.count s.chunks.length
        have hnm : s.chunks.length ∉ s.handles :=
          fun hmem => absurd (hhb _ hmem) (by omega)
        exact (List.count_eq_zero.mpr hnm).symm
      · exfalso
        have hlen2 : (s.chunks ++
            [ChunkState.fresh s.size s.len start s.head]).length ≤ j := by
          simp only [List.length_append, List.length_cons, List.length_nil]
          omega
        rw [List.getElem?_eq_none hlen2] at hj
        exact Option.noConfusion hj
  · -- stack entries in bounds
    intro j hj
    have := hfb j hj
    simp only [List.length_append, List.length_cons, List.length_nil]
    omega
  · -- FREE bit iff on the stack
    intro j c' hj
    by_cases hjl : j < s.chunks.length
    · have : s.chunks[j]? = some c' := by
        rw [← List.getElem?_append_left hjl]
        exact hj
      exact hfm j c' this
    · by_cases hje : j = s.chunks.length
      · subst hje
        have hg := fresh_getC s (ChunkState.fresh s.size s.len start s.head)
        rw [ListState.getC] at hg
        rw [hg] at hj
        have hceq := Option.some.inj hj
        rw [← hceq]
        show (false = true) ↔ s.chunks.length ∈ s.freeStack
        have hnm : s.chunks.length ∉ s.freeStack :=
          fun hmem => absurd (hfb _ hmem) (by omega)
        simp [hnm]
      · exfalso
        have hlen2 : (s.chunks ++
            [ChunkState.fresh s.size s.len start s.head]).length ≤ j := by
          simp only [List.length_append, List.length_cons, List.length_nil]
          omega
        rw [List.getElem?_eq_none hlen2] at hj
        exact Option.noConfusion hj
  · -- stack links
    intro k hk
    have hjl : s.freeStack[k] < s.chunks.length :=
      hfb _ (List.getElem_mem hk)
    have := hfl k hk
    rw [← List.getElem?_append_left hjl] at this
    exact this

theorem currentRep_append_fresh (s : ListState) (start : Nat)
    (hrep : CurrentRep s) :
    CurrentRep { s with chunks :=
      s.chunks ++ [ChunkState.fresh s.size s.len start s.head] } := by
  obtain ⟨h1, h2⟩ := hrep
  constructor
  · intro j hj
    obtain ⟨c', hc', hcc⟩ := h1 j hj
    refine ⟨c', ?_, hcc⟩
    have hjl : j < s.chunks.length := by
      obtain ⟨hk, _⟩ := List.getElem?_eq_some.mp hc'
      exact hk
    rw [← List.getElem?_append_left hjl] at hc'
    exact hc'
  · intro j c' hj hcc
    by_cases hjl : j < s.chunks.length
    · have : s.chunks[j]? = some c' := by
        rw [← List.getElem?_append_left hjl]
        exact hj
      exact h2 j c' this hcc
    · by_cases hje : j = s.chunks.length
      · subst hje
        have hg := fresh_getC s (ChunkState.fresh s.size s.len start s.head)
        rw [ListState.getC] at hg
        rw [hg] at hj
        have hceq := Option.some.inj hj
        exfalso
        have : c'.current = false := by
          rw [← hceq]
          rfl
        rw [this] at hcc
        exact Bool.false_ne_true hcc
      · exfalso
        have hlen2 : (s.chunks ++
            [ChunkState.fresh s.size s.len start s.head]).length ≤ j := by
          simp only [List.length_append, List.length_cons, List.length_nil]
          omega
        rw [List.getElem?_eq_none hlen2] at hj
        exact Option.noConfusion hj

theorem noCur_append_fresh (s : ListState) (start : Nat) (hnc : NoCur s) :
    NoCur { s with chunks :=
      s.chunks ++ [ChunkState.fresh s.size s.len start s.head] } := by
  intro j c' hj
  by_cases hjl : j < s.chunks.length
  · have : s.chunks[j]? = some c' := by
      rw [← List.getElem?_append_left hjl]
      exact hj
    exact hnc j c' this
  · by_cases hje : j = s.chunks.length
    · subst hje
      have hg := fresh_getC s (ChunkState.fresh s.size s.len start s.head)
      rw [ListState.getC] at hg
      rw [hg] at hj
      have hceq := Option.some.inj hj
      rw [← hceq]
      rfl
    · exfalso
      have hlen2 : (s.chunks ++
          [ChunkState.fresh s.size s.len start s.head]).length ≤ j := by
        simp only [List.length_append, List.length_cons, List.length_nil]
        omega
      rw [List.getElem?_eq_none hlen2] at hj
      exact Option.noConfusion hj

theorem allocate_chunk_inv (s : ListState) (start i : Nat) (s' : ListState)
    (hinv : InvCore s)
    (h : ChunkList.allocate_chunk s start = some (i, s')) :
    i = s.chunks.length ∧ InvCore s' ∧
    s'.current = s.current ∧ s'.handles = s.handles ∧ s'.size = s.size ∧
    s'.freeTop = some i ∧
    (CurrentRep s → CurrentRep s') ∧ (NoCur s → NoCur s') := by
  by_cases hg : start = 0 ∨ start % s.size ≠ 0 ∨ 2 ^ 64 ≤ start + s.size
  · exfalso
    simp only [ChunkList.allocate_chunk, if_pos hg] at h
    exact Option.noConfusion h
  · push_neg at hg
    obtain ⟨h0, hmod, hlt⟩ := hg
    rw [allocate_chunk_eq s start h0 hmod hlt] at h
    have hp := Option.some.inj h
    injection hp with hi hs'
    subst hi
    subst hs'
    have hinv1 := invCore_append_fresh s start hinv h0 hmod hlt
    have hg1 := fresh_getC s (ChunkState.fresh s.size s.len start s.head)
    have hinv2 := invCore_pushedState _ _ _ hinv1 hg1 rfl rfl rfl rfl
    refine ⟨rfl, hinv2, rfl, rfl, rfl, rfl, ?_, ?_⟩
    · intro hcr
      exact currentRep_pushedState _ _ _ hg1
        (currentRep_append_fresh s start hcr)
    · intro hnc
      exact noCur_pushedState _ _ _ hg1 (noCur_append_fresh s start hnc)

theorem reserve_inv (starts : List Nat) : ∀ (s s' : ListState),
    InvCore s → ChunkList.reserve s starts = some s' →
    InvCore s' ∧ s'.current = s.current ∧ s'.handles = s.handles ∧
    s'.size = s.size ∧ (CurrentRep s → CurrentRep s') ∧
    (NoCur s → NoCur s') := by
  induction starts with
  | nil =>
    intro s s' hinv h
    obtain rfl : s = s' := Option.some.inj h
    exact ⟨hinv, rfl, rfl, rfl, id, id⟩
  | cons st rest ih =>
    intro s s' hinv h
    simp only [ChunkList.reserve] at h
    cases halloc : ChunkList.allocate_chunk s st with
    | none =>
      rw [halloc] at h
      exact Option.noConfusion h
    | some p =>
      obtain ⟨i, s₁⟩ := p
      rw [halloc] at h
      obtain ⟨hi, hinv1, hcur, hhand, hsize, hft, hcr, hnc⟩ :=
        allocate_chunk_inv s st i s₁ hinv halloc
      obtain ⟨hinv2, hcur2, hhand2, hsize2, hcr2, hnc2⟩ := ih s₁ s' hinv1 h
      exact ⟨hinv2, by rw [hcur2, hcur], by rw [hhand2, hhand],
        by rw [hsize2, hsize], fun hc => hcr2 (hcr hc),
        fun hn => hnc2 (hnc hn)⟩

theorem pop_of_invCore (s : ListState) (i : Nat) (hinv : InvCore s)
    (hTop : s.freeTop = some i) :
    ∃ c, s.getC i = some c ∧ c.free = true ∧ c.current = false ∧
      c.refs = 0 ∧ c.bump = c.start + c.size ∧
      FreeList.pop s = some (some i, poppedState s i c) := by
  obtain ⟨hpow, hwf, hh, hft, hnd, hfb, hfm, hfl⟩ := hinv
  have hhead : s.freeStack.head? = some i := hft ▸ hTop
  obtain ⟨rest, hfs⟩ := List.head?_eq_some_iff.mp hhead
  have hmem : i ∈ s.freeStack := by
    rw [hfs]
    exact List.mem_cons_self ..
  have hlen : i < s.chunks.length := hfb i hmem
  obtain ⟨c, hc⟩ : ∃ c, s.getC i = some c := by
    rw [ListState.getC, List.getElem?_eq_getElem hlen]
    exact ⟨_, rfl⟩
  have hfacts := pop_top_facts s i c
    ⟨hpow, hwf, hh, hft, hnd, hfb, hfm, hfl⟩ hTop hc
  exact ⟨c, hc, hfacts.1, hfacts.2.1, hfacts.2.2.1, hfacts.2.2.2,
    pop_some s i c hTop hc hfacts.1⟩

theorem pop_or_alloc_inv (s : ListState) (start i : Nat) (s' : ListState)
    (hinv : InvCore s)
    (h : ChunkList.pop_or_alloc s start = some (i, s')) :
    InvCore s' ∧ s'.current = s.current ∧ s'.handles = s.handles ∧
    s'.size = s.size ∧
    (CurrentRep s → CurrentRep s') ∧ (NoCur s → NoCur s') ∧
    ∃ c, s'.getC i = some c ∧ c.free = false ∧ c.current = false ∧
      c.refs = 0 ∧ c.bump = c.start + c.size := by
  simp only [ChunkList.pop_or_alloc, FreeList.peek] at h
  cases hTop : s.freeTop with
  | some j =>
    simp only [hTop, Option.isNone_some, Bool.false_eq_true, if_false] at h
    obtain ⟨c, hc, hfree, hcur, hrefs, hbump, hpop⟩ :=
      pop_of_invCore s j hinv hTop
    simp only [hpop] at h
    have hp := Option.some.inj h
    injection hp with hi hs'
    subst hi
    subst hs'
    have hlen : j < s.chunks.length := getC_lt s j c hc
    refine ⟨invCore_poppedState s j c hinv hTop hc, rfl, rfl, rfl,
      currentRep_poppedState s j c hc, noCur_poppedState s j c hc,
      { c with next_free := none, free := false }, ?_, rfl, hcur, hrefs,
      hbump⟩
    exact popped_getC_self s j c hlen
  | none =>
    simp only [hTop, Option.isNone_none, if_true] at h
    cases halloc : ChunkList.allocate_chunk s start with
    | none =>
      rw [halloc] at h
      exact Option.noConfusion h
    | some p =>
      obtain ⟨j, s₁⟩ := p
      simp only [halloc] at h
      obtain ⟨hj, hinv1, hcur1, hhand1, hsize1, hft1, hcr1, hnc1⟩ :=
        allocate_chunk_inv s start j s₁ hinv halloc
      obtain ⟨c, hc, hfree, hcur, hrefs, hbump, hpop⟩ :=
        pop_of_invCore s₁ j hinv1 hft1
      simp only [hpop] at h
      have hp := Option.some.inj h
      injection hp with hi hs'
      subst hi
      subst hs'
      have hlen : j < s₁.chunks.length := getC_lt s₁ j c hc
      refine ⟨invCore_poppedState s₁ j c hinv1 hft1 hc,
        by rw [show (poppedState s₁ j c).current = s₁.current from rfl, hcur1],
        by rw [show (poppedState s₁ j c).handles = s₁.handles from rfl, hhand1],
        by rw [show (poppedState s₁ j c).size = s₁.size from rfl, hsize1],
        fun hc2 => currentRep_poppedState s₁ j c hc (hcr1 hc2),
        fun hn2 => noCur_poppedState s₁ j c hc (hnc1 hn2),
        { c with next_free := none, free := false }, ?_, rfl, hcur, hrefs,
        hbump⟩
      exact popped_getC_self s₁ j c hlen

/-! ### Generic preservation lemmas for single-chunk updates -/

theorem wf_setC (s : ListState) (i : Nat) (c c' : ChunkState)
    (hwf : ∀ d ∈ s.chunks, WfChunk s.size d) (hc : s.getC i = some c)
    (hwfc : WfChunk s.size c') :
    ∀ d ∈ (s.setC i c').chunks, WfChunk s.size d := by
  intro d hd
  rcases List.mem_or_eq_of_mem_set hd with hmem | heq
  · exact hwf d hmem
  · subst heq
    exact hwfc

theorem handleRep_setC (s : ListState) (i : Nat) (c c' : ChunkState)
    (hrep : HandleRep s) (hc : s.getC i = some c)
    (hrefs : c'.refs = c.refs) : HandleRep (s.setC i c') := by
  obtain ⟨hhb, hhc⟩ := hrep
  have hlen : i < s.chunks.length := getC_lt s i c hc
  constructor
  · intro j hj
    have := hhb j hj
    simpa [ListState.setC] using this
  · intro j d hj
    by_cases hij : i = j
    · subst hij
      have hg := getC_setC_self s i c' hlen
      rw [ListState.getC] at hg
      rw [hg] at hj
      have hdeq := Option.some.inj hj
      rw [← hdeq, hrefs]
      rw [ListState.getC] at hc
      exact hhc i c hc
    · have heq := getC_setC_ne s i j c' hij
      rw [ListState.getC, ListState.getC] at heq
      rw [heq] at hj
      exact hhc j d hj

theorem freeListRep_setC (s : ListState) (i : Nat) (c c' : ChunkState)
    (hrep : FreeListRep s) (hc : s.getC i = some c)
    (hfree : c'.free = c.free) (hnf : c'.next_free = c.next_free) :
    FreeListRep (s.setC i c') := by
  obtain ⟨hft, hnd, hfb, hfm, hfl⟩ := hrep
  have hlen : i < s.chunks.length := getC_lt s i c hc
  refine ⟨hft, hnd, ?_, ?_, ?_⟩
  · intro j hj
    have := hfb j hj
    simpa [ListState.setC] using this
  · intro j d hj
    by_cases hij : i = j
    · subst hij
      have hg := getC_setC_self s i c' hlen
      rw [ListState.getC] at hg
      rw [hg] at hj
      have hdeq := Option.some.inj hj
      rw [← hdeq, hfree]
      rw [ListState.getC] at hc
      exact hfm i c hc
    · have heq := getC_setC_ne s i j c' hij
      rw [ListState.getC, ListState.getC] at heq
      rw [heq] at hj
      exact hfm j d hj
  · intro k hk
    show ((s.setC i c').chunks[s.freeStack[k]]?).map ChunkState.next_free =
      some s.freeStack[k + 1]?
    by_cases hij : i = s.freeStack[k]
    · have hg := getC_setC_self s i c' hlen
      rw [ListState.getC] at hg
      rw [← hij, hg]
      have hold := hfl k hk
      rw [← hij] at hold
      rw [ListState.getC] at hc
      rw [hc] at hold
      simp only [Option.map_some'] at hold ⊢
      rw [hnf]
      exact hold
    · have heq := getC_setC_ne s i (s.freeStack[k]) c' hij
      rw [ListState.getC, ListState.getC] at heq
      rw [heq]
      exact hfl k hk

theorem currentRep_setC_same (s : ListState) (i : Nat) (c c' : ChunkState)
    (hrep : CurrentRep s) (hc : s.getC i = some c)
    (hcur : c'.current = c.current) : CurrentRep (s.setC i c') := by
  obtain ⟨h1, h2⟩ := hrep
  have hlen : i < s.chunks.length := getC_lt s i c hc
  constructor
  · intro j hj
    have hj' : s.current = some j := hj
    obtain ⟨d, hd, hdc⟩ := h1 j hj'
    by_cases hij : i = j
    · subst hij
      refine ⟨c', ?_, ?_⟩
      · have hg := getC_setC_self s i c' hlen
        rw [ListState.getC] at hg
        exact hg
      · rw [ListState.getC] at hc
        rw [hc] at hd
        have : c = d := Option.some.inj hd
        rw [hcur, this]
        exact hdc
    · refine ⟨d, ?_, hdc⟩
      have heq := getC_setC_ne s i j c' hij
      rw [ListState.getC, ListState.getC] at heq
      rw [heq]
      exact hd
  · intro j d hj hdc
    show s.current = some j
    by_cases hij : i = j
    · subst hij
      have hg := getC_setC_self s i c' hlen
      rw [ListState.getC] at hg
      rw [hg] at hj
      have hdeq := Option.some.inj hj
      apply h2 i c
      · rw [ListState.getC] at hc
        exact hc
      · rw [← hcur, hdeq]
        exact hdc
    · have heq := getC_setC_ne s i j c' hij
      rw [ListState.getC, ListState.getC] at heq
      rw [heq] at hj
      exact h2 j d hj hdc

theorem noCur_setC (s : ListState) (i : Nat) (c c' : ChunkState)
    (hnc : NoCur s) (hc : s.getC i = some c) (hcur : c'.current = false) :
    NoCur (s.setC i c') := by
  intro j d hj
  have hlen : i < s.chunks.length := getC_lt s i c hc
  by_cases hij : i = j
  · subst hij
    have hg := getC_setC_self s i c' hlen
    rw [ListState.getC] at hg
    rw [hg] at hj
    have hdeq := Option.some.inj hj
    rw [← hdeq]
    exact hcur
  · have heq := getC_setC_ne s i j c' hij
    rw [ListState.getC, ListState.getC] at heq
    rw [heq] at hj
    exact hnc j d hj

/-! ### Arithmetic of the downward bump computation -/

theorem and_not64_eq (x k : Nat) (hx : x < 2 ^ 64) (hk : k ≤ 64) :
    x &&& not64 (2 ^ k - 1) = x - x % 2 ^ k := by
  have hdam := Nat.div_add_mod x (2 ^ k)
  have hdm : x - x % 2 ^ k = 2 ^ k * (x / 2 ^ k) := by omega
  apply Nat.eq_of_testBit_eq
  intro j
  rw [Nat.testBit_and]
  have hmask : (not64 (2 ^ k - 1)).testBit j =
      (decide (j < 64) != decide (j < k)) := by
    unfold not64
    rw [Nat.testBit_xor, Nat.testBit_two_pow_sub_one,
      Nat.testBit_two_pow_sub_one]
  rw [hmask]
  have hrhs : (x - x % 2 ^ k).testBit j = (decide (k ≤ j) && x.testBit j) := by
    rw [hdm, show 2 ^ k * (x / 2 ^ k) = (x / 2 ^ k) <<< k by
      rw [Nat.shiftLeft_eq]; ring]
    rw [Nat.testBit_shiftLeft]
    by_cases hjk : k ≤ j
    · rw [show x / 2 ^ k = x >>> k from (Nat.shiftRight_eq_div_pow x k).symm,
        Nat.testBit_shiftRight, show k + (j - k) = j by omega]
    · simp [hjk]
  rw [hrhs]
  by_cases hj64 : j < 64
  · by_cases hjk : j < k
    · simp [hj64, hjk, show ¬(k ≤ j) by omega]
    · simp [hj64, hjk, show k ≤ j by omega]
  · have hxj : x.testBit j = false := by
      apply Nat.testBit_lt_two_pow
      calc x < 2 ^ 64 := hx
        _ ≤ 2 ^ j := Nat.pow_le_pow_right (by norm_num) (by omega)
    simp [hxj]

theorem is_power_of_two_spec (n : Nat) (h : is_power_of_two n = true) :
    ∃ k, n = 2 ^ k := by
  simp only [is_power_of_two, Bool.and_eq_true, bne_iff_ne, beq_iff_eq,
    ne_eq] at h
  obtain ⟨hne, hand⟩ := h
  refine ⟨n.size - 1, ?_⟩
  by_contra hcon
  have hpos : 0 < n := Nat.pos_of_ne_zero hne
  have hsize : 0 < n.size := Nat.size_pos.mpr hpos
  have hlow : 2 ^ (n.size - 1) ≤ n :=
    Nat.lt_size.mp (by omega : n.size - 1 < n.size)
  have hhigh : n < 2 ^ n.size := Nat.lt_size_self n
  have h2 : 2 ^ n.size = 2 * 2 ^ (n.size - 1) := by
    rw [← pow_succ']
    congr 1
    omega
  have hb1 : n.testBit (n.size - 1) = true := by
    rw [Nat.testBit_to_div_mod]
    have hd : n / 2 ^ (n.size - 1) = 1 :=
      Nat.div_eq_of_lt_le (by omega) (by omega)
    rw [hd]
    decide
  have hb2 : (n - 1).testBit (n.size - 1) = true := by
    rw [Nat.testBit_to_div_mod]
    have hlt : 2 ^ (n.size - 1) < n := by
      rcases Nat.lt_or_ge (2 ^ (n.size - 1)) n with h | h
      · exact h
      · exact absurd (le_antisymm h hlow) hcon
    have hd : (n - 1) / 2 ^ (n.size - 1) = 1 :=
      Nat.div_eq_of_lt_le (by omega) (by omega)
    rw [hd]
    decide
  have hbit := congrArg (fun m => m.testBit (n.size - 1)) hand
  simp only [Nat.testBit_and, hb1, hb2, Bool.and_self, Nat.zero_testBit]
    at hbit
  exact Bool.noConfusion hbit

/-- The result of a successful `calc_pointer` with a power-of-two alignment:
the masked value is the align-down of `bump - size`, and the checks of the
source give non-nullity and the lower bound. -/
theorem calc_pointer_char (c : ChunkState) (sz al k : Nat) (hal : al = 2 ^ k)
    (hk : k ≤ 64) (hbump : c.bump < 2 ^ 64) :
    Chunk.calc_pointer c sz al =
      (if sz ≤ c.bump ∧ ((c.bump - sz) - (c.bump - sz) % al) ≠ 0 ∧
          c.start ≤ ((c.bump - sz) - (c.bump - sz) % al)
       then some ((c.bump - sz) - (c.bump - sz) % al) else none) := by
  subst hal
  have hmask := and_not64_eq (c.bump - sz) k (by omega) hk
  simp only [Chunk.calc_pointer]
  rw [hmask]
  by_cases h1 : sz ≤ c.bump
  · simp only [h1, if_true, true_and]
    by_cases h2 : (c.bump - sz) - (c.bump - sz) % 2 ^ k = 0
    · simp [h2]
    · simp only [h2, if_false, ne_eq, not_false_iff, true_and]
      by_cases h3 : (c.bump - sz) - (c.bump - sz) % 2 ^ k < c.start
      · simp [h3, show ¬(c.start ≤ (c.bump - sz) - (c.bump - sz) % 2 ^ k) by
          omega]
      · simp [h3, show c.start ≤ (c.bump - sz) - (c.bump - sz) % 2 ^ k by
          omega]
  · simp [h1]

/-- A fully reset well-formed chunk fits any layout within the fit
precondition: `calc_pointer` succeeds. -/
theorem calc_pointer_reset (S m : Nat) (c : ChunkState) (sz al k : Nat)
    (hwf : WfChunk S c) (hreset : c.bump = c.start + c.size)
    (hS : S = 2 ^ m) (hsz : sz ≤ S) (hal : al = 2 ^ k) (halS : al ≤ S) :
    ∃ p, Chunk.calc_pointer c sz al = some p := by
  obtain ⟨hcsize, hst0, hstmod, hstlt, _, _, _⟩ := hwf
  have hk64 : k ≤ 64 := by
    have : (2 : Nat) ^ k ≤ 2 ^ 64 := by
      calc (2 : Nat) ^ k = al := hal.symm
        _ ≤ S := halS
        _ ≤ 2 ^ 64 := by omega
    by_contra hcon
    have : (2 : Nat) ^ 64 < 2 ^ k := Nat.pow_lt_pow_right (by norm_num) (by omega)
    omega
  have hbump : c.bump < 2 ^ 64 := by
    rw [hreset, hcsize]
    omega
  rw [calc_pointer_char c sz al k hal hk64 hbump]
  have hkm : k ≤ m := by
    rw [hal, hS] at halS
    exact (Nat.pow_le_pow_iff_right (by norm_num)).mp halS
  have haldvdS : al ∣ S := by
    rw [hal, hS]
    exact pow_dvd_pow 2 hkm
  have halpos : 0 < al := by
    rw [hal]
    exact Nat.pos_pow_of_pos k (by norm_num)
  have haldvdStart : c.start % al = 0 := by
    have hSdvd : S ∣ c.start := Nat.dvd_of_mod_eq_zero hstmod
    exact Nat.mod_eq_zero_of_dvd (dvd_trans haldvdS hSdvd)
  have hx : c.bump - sz = c.start + (S - sz) := by
    rw [hreset, hcsize]
    omega
  have hxmod : (c.bump - sz) % al = (S - sz) % al := by
    rw [hx, Nat.add_mod, haldvdStart]
    simp [Nat.mod_mod_of_dvd]
  have hmodle : (S - sz) % al ≤ S - sz := Nat.mod_le _ _
  have h1 : sz ≤ c.bump := by omega
  have h3 : c.start ≤ (c.bump - sz) - (c.bump - sz) % al := by omega
  have h2 : (c.bump - sz) - (c.bump - sz) % al ≠ 0 := by omega
  exact ⟨_, by rw [if_pos ⟨h1, h2, h3⟩]⟩

/-! ### Invariant preservation: current-chunk selection and allocation -/

theorem set_new_current_inv (s : ListState) (start j : Nat) (s' : ListState)
    (hinvc : InvCore s) (hnc : NoCur s)
    (h : ChunkList.set_new_current s start = some (j, s')) :
    Inv s' ∧ s'.handles = s.handles ∧ s'.size = s.size ∧
    s'.current = some j ∧
    ∃ c, s'.getC j = some c ∧ c.current = true ∧ c.free = false ∧
      c.refs = 0 ∧ c.bump = c.start + c.size := by
  simp only [ChunkList.set_new_current] at h
  cases hpoa : ChunkList.pop_or_alloc s start with
  | none =>
    rw [hpoa] at h
    exact Option.noConfusion h
  | some p =>
    obtain ⟨j₀, s₁⟩ := p
    simp only [hpoa] at h
    obtain ⟨hinv1, hcur1, hhand1, hsize1, _, hnc1, c, hc, hfree, hcurb,
      hrefs, hbump⟩ := pop_or_alloc_inv s start j₀ s₁ hinvc hpoa
    simp only [hc] at h
    have hp := Option.some.inj h
    injection hp with hj hs'
    subst hj
    subst hs'
    have hnc2 : NoCur s₁ := hnc1 hnc
    have hlen : j₀ < s₁.chunks.length := getC_lt s₁ j₀ c hc
    obtain ⟨hpow1, hwf1, hh1, hfr1⟩ := hinv1
    have hwfc : WfChunk s₁.size c.toggle_current := by
      obtain ⟨a1, a2, a3, a4, a5, a6, _⟩ := hwf1 c (mem_of_getElem? hc)
      refine ⟨a1, a2, a3, a4, a5, a6, fun hf => ?_⟩
      exfalso
      have : c.free = true := hf
      rw [hfree] at this
      exact Bool.false_ne_true this
    have hinvc2 : InvCore (s₁.setC j₀ c.toggle_current) :=
      ⟨hpow1, wf_setC s₁ j₀ c _ hwf1 hc hwfc,
       handleRep_setC s₁ j₀ c _ hh1 hc rfl,
       freeListRep_setC s₁ j₀ c _ hfr1 hc rfl rfl⟩
    have hgc2 : (s₁.setC j₀ c.toggle_current).getC j₀ =
        some c.toggle_current := getC_setC_self s₁ j₀ _ hlen
    refine ⟨⟨hinvc2, ?_, ?_⟩, ?_, ?_, rfl, c.toggle_current, hgc2, ?_, ?_,
      hrefs, hbump⟩
    · -- the cell points at a CURRENT chunk
      intro j hj
      have hj0 : some j₀ = some j := hj
      obtain rfl : j₀ = j := Option.some.inj hj0
      refine ⟨c.toggle_current, hgc2, ?_⟩
      show (!c.current) = true
      rw [hcurb]
      rfl
    · -- the CURRENT chunk is unique
      intro j d hj hdc
      show some j₀ = some j
      by_cases hij : j₀ = j
      · rw [hij]
      · exfalso
        have heq := getC_setC_ne s₁ j₀ j c.toggle_current hij
        rw [ListState.getC, ListState.getC] at heq
        rw [heq] at hj
        have := hnc2 j d hj
        rw [this] at hdc
        exact Bool.false_ne_true hdc
    · exact hhand1
    · exact hsize1
    · show (!c.current) = true
      rw [hcurb]
      rfl
    · show c.free = false
      exact hfree

theorem get_current_inv (s : ListState) (sz al start i : Nat) (s' : ListState)
    (hinv : Inv s)
    (h : ChunkList.get_current s sz al start = some (i, s')) :
    Inv s' ∧ s'.handles = s.handles ∧ s'.size = s.size ∧
    s'.current = some i ∧
    ∃ c, s'.getC i = some c ∧ c.current = true ∧ c.free = false ∧
      (Chunk.can_fit c sz al = true ∨
        (c.refs = 0 ∧ c.bump = c.start + c.size)) := by
  obtain ⟨hinvc, hcr⟩ := hinv
  simp only [ChunkList.get_current] at h
  cases hcur : s.current with
  | some i₀ =>
    simp only [hcur] at h
    obtain ⟨c₀, hc₀, hcb₀⟩ := hcr.1 i₀ hcur
    have hc₀' : s.getC i₀ = some c₀ := hc₀
    simp only [hc₀'] at h
    by_cases hfit : Chunk.can_fit c₀ sz al
    · rw [if_pos hfit] at h
      have hp := Option.some.inj h
      injection hp with hi hs'
      subst hi
      subst hs'
      have hfree₀ : c₀.free = false := by
        obtain ⟨_, hwf, _, _⟩ := hinvc
        obtain ⟨_, _, _, _, _, _, hp1⟩ := hwf c₀ (mem_of_getElem? hc₀)
        by_contra hcon
        have hfr : c₀.free = true := by
          cases hq : c₀.free
          · exact absurd hq hcon
          · rfl
        obtain ⟨hnc, _, _⟩ := hp1 hfr
        rw [hnc] at hcb₀
        exact Bool.false_ne_true hcb₀
      exact ⟨⟨hinvc, hcr⟩, rfl, rfl, hcur, c₀, hc₀', hcb₀, hfree₀,
        Or.inl hfit⟩
    · rw [if_neg hfit] at h
      -- displace the current chunk, then install a replacement
      have hlen₀ : i₀ < s.chunks.length := getC_lt s i₀ c₀ hc₀'
      have hfree₀ : c₀.free = false := by
        obtain ⟨_, hwf, _, _⟩ := hinvc
        obtain ⟨_, _, _, _, _, _, hp1⟩ := hwf c₀ (mem_of_getElem? hc₀)
        by_contra hcon
        have hfr : c₀.free = true := by
          cases hq : c₀.free
          · exact absurd hq hcon
          · rfl
        obtain ⟨hncc, _, _⟩ := hp1 hfr
        rw [hncc] at hcb₀
        exact Bool.false_ne_true hcb₀
      have hwfc : WfChunk s.size c₀.toggle_current := by
        obtain ⟨_, hwf, _, _⟩ := hinvc
        obtain ⟨a1, a2, a3, a4, a5, a6, _⟩ := hwf c₀ (mem_of_getElem? hc₀)
        refine ⟨a1, a2, a3, a4, a5, a6, fun hf => ?_⟩
        exfalso
        have hcf : c₀.free = true := hf
        rw [hfree₀] at hcf
        exact Bool.false_ne_true hcf
      have hinvc2 : InvCore (s.setC i₀ c₀.toggle_current) := by
        obtain ⟨hpow, hwf, hh, hfr⟩ := hinvc
        exact ⟨hpow, wf_setC s i₀ c₀ _ hwf hc₀' hwfc,
          handleRep_setC s i₀ c₀ _ hh hc₀' rfl,
          freeListRep_setC s i₀ c₀ _ hfr hc₀' rfl rfl⟩
      have hnc2 : NoCur (s.setC i₀ c₀.toggle_current) := by
        intro j d hj
        by_cases hij : i₀ = j
        · subst hij
          have hg := getC_setC_self s i₀ c₀.toggle_current hlen₀
          rw [ListState.getC] at hg
          rw [hg] at hj
          have hdeq := Option.some.inj hj
          rw [← hdeq]
          show (!c₀.current) = false
          rw [hcb₀]
          rfl
        · have heq := getC_setC_ne s i₀ j c₀.toggle_current hij
          rw [ListState.getC, ListState.getC] at heq
          rw [heq] at hj
          by_contra hcon
          have hdc : d.current = true := by
            cases hq : d.current
            · exact absurd hq hcon
            · rfl
          have := hcr.2 j d hj hdc
          rw [hcur] at this
          exact hij (Option.some.inj this.symm).symm
      obtain ⟨hinv3, hhand3, hsize3, hcur3, c, hgc, hcc, hcf, hcrf, hcb⟩ :=
        set_new_current_inv (s.setC i₀ c₀.toggle_current) start i s' hinvc2
          hnc2 h
      refine ⟨hinv3, ?_, ?_, hcur3, c, hgc, hcc, hcf, Or.inr ⟨hcrf, hcb⟩⟩
      · rw [hhand3]
        rfl
      · rw [hsize3]
        rfl
  | none =>
    simp only [hcur] at h
    have hnc : NoCur s := by
      intro j d hj
      by_contra hcon
      have hdc : d.current = true := by
        cases hq : d.current
        · exact absurd hq hcon
        · rfl
      have := hcr.2 j d hj hdc
      rw [hcur] at this
      exact Option.noConfusion this
    obtain ⟨hinv3, hhand3, hsize3, hcur3, c, hgc, hcc, hcf, hcrf, hcb⟩ :=
      set_new_current_inv s start i s' hinvc hnc h
    exact ⟨hinv3, hhand3, hsize3, hcur3, c, hgc, hcc, hcf,
      Or.inr ⟨hcrf, hcb⟩⟩

theorem alloc_layout_char (c : ChunkState) (sz al p : Nat) (c' : ChunkState)
    (h : Chunk.alloc_layout c sz al = some (p, c')) :
    Chunk.calc_pointer c sz al = some p ∧ c' = { c with bump := p } := by
  unfold Chunk.alloc_layout at h
  cases hcp : Chunk.calc_pointer c sz al with
  | none =>
    rw [hcp] at h
    exact Option.noConfusion h
  | some q =>
    rw [hcp] at h
    have hp := Option.some.inj h
    injection hp with h1 h2
    subst h1
    subst h2
    exact ⟨rfl, rfl⟩

theorem allocate_inv (s : ListState) (sz al k start i p : Nat)
    (s' : ListState) (hinv : Inv s) (hsz : sz ≤ s.size) (hal : al = 2 ^ k)
    (halS : al ≤ s.size)
    (h : ChunkList.allocate s sz al start = some (⟨i, p⟩, s')) :
    Inv s' ∧ s'.handles = s.handles ∧ s'.size = s.size ∧
    s'.current = some i ∧
    ∃ c, s'.getC i = some c ∧ c.current = true ∧ c.free = false ∧
      c.bump = p ∧ c.start ≤ p ∧ p + sz ≤ c.start + c.size ∧ al ∣ p := by
  simp only [ChunkList.allocate] at h
  cases hgc : ChunkList.get_current s sz al start with
  | none =>
    rw [hgc] at h
    exact Option.noConfusion h
  | some q =>
    obtain ⟨i₁, s₁⟩ := q
    simp only [hgc] at h
    obtain ⟨hinv1, hhand1, hsize1, hcur1, c₁, hc₁, hcc₁, hcf₁, _⟩ :=
      get_current_inv s sz al start i₁ s₁ hinv hgc
    simp only [hc₁] at h
    cases halo : Chunk.alloc_layout c₁ sz al with
    | none =>
      rw [halo] at h
      exact Option.noConfusion h
    | some q₂ =>
      obtain ⟨p₂, c₂⟩ := q₂
      simp only [halo] at h
      have hp := Option.some.inj h
      injection hp with h1 h2
      injection h1 with hi hp₂
      have hi' := hi.symm
      subst hi'
      have hp' := hp₂.symm
      subst hp'
      subst h2
      obtain ⟨hcalc, hc₂⟩ := alloc_layout_char c₁ sz al p c₂ halo
      subst hc₂
      -- well-formedness facts of the serving chunk
      obtain ⟨hinvc1, hcr1⟩ := hinv1
      obtain ⟨hpow1, hwf1, hh1, hfr1⟩ := hinvc1
      obtain ⟨hq1, hq2, hq3, hq4, hq5, hq6, _⟩ := hwf1 c₁ (mem_of_getElem? hc₁)
      have hk64 : k ≤ 64 := by
        have hS : s₁.size < 2 ^ 64 := by omega
        have h2k : (2 : Nat) ^ k < 2 ^ 64 := by
          rw [← hal]
          calc al ≤ s.size := halS
            _ = s₁.size := hsize1.symm
            _ < 2 ^ 64 := hS
        by_contra hcon
        have : (2 : Nat) ^ 64 ≤ 2 ^ k :=
          Nat.pow_le_pow_right (by norm_num) (by omega)
        omega
      have hbump64 : c₁.bump < 2 ^ 64 := by omega
      rw [calc_pointer_char c₁ sz al k hal hk64 hbump64] at hcalc
      by_cases hcond : sz ≤ c₁.bump ∧
          ((c₁.bump - sz) - (c₁.bump - sz) % al) ≠ 0 ∧
          c₁.start ≤ ((c₁.bump - sz) - (c₁.bump - sz) % al)
      · rw [if_pos hcond] at hcalc
        have hpval := Option.some.inj hcalc
        obtain ⟨hszle, hne, hstle⟩ := hcond
        have hple : p ≤ c₁.bump - sz := by
          rw [← hpval]
          omega
        have hdvd : al ∣ p := by
          rw [← hpval]
          have hdam := Nat.div_add_mod (c₁.bump - sz) al
          exact ⟨(c₁.bump - sz) / al, by omega⟩
        -- the new state: write back the chunk with the lowered bump cursor
        have hlen₁ : i < s₁.chunks.length := getC_lt s₁ i c₁ hc₁
        have hwfc₂ : WfChunk s₁.size { c₁ with bump := p } := by
          refine ⟨hq1, hq2, hq3, hq4, ?_, ?_, fun hf => ?_⟩
          · show c₁.start ≤ p
            rw [← hpval]
            exact hstle
          · show p ≤ c₁.start + c₁.size
            omega
          · exfalso
            have hcf : c₁.free = true := hf
            rw [hcf₁] at hcf
            exact Bool.false_ne_true hcf
        refine ⟨⟨⟨hpow1, wf_setC s₁ i c₁ _ hwf1 hc₁ hwfc₂,
            handleRep_setC s₁ i c₁ _ hh1 hc₁ rfl,
            freeListRep_setC s₁ i c₁ _ hfr1 hc₁ rfl rfl⟩,
          currentRep_setC_same s₁ i c₁ _ hcr1 hc₁ rfl⟩, ?_, ?_, ?_,
          { c₁ with bump := p }, ?_, hcc₁, hcf₁, rfl, ?_, ?_, hdvd⟩
        · exact hhand1
        · exact hsize1
        · exact hcur1
        · exact getC_setC_self s₁ i _ hlen₁
        · rw [← hpval]
          exact hstle
        · show p + sz ≤ c₁.start + c₁.size
          omega
      · rw [if_neg hcond] at hcalc
        exact Option.noConfusion hcalc

/-! ### Behaviour of the pointer reference operations -/

theorem setC_setC (s : ListState) (i : Nat) (a b : ChunkState) :
    (s.setC i a).setC i b = s.setC i b := by
  simp [ListState.setC, List.set_set]

theorem add_ref_char (s : ListState) (i : Nat) (c : ChunkState)
    (hc : s.getC i = some c) (hlt : c.refs ≠ REF_COUNT) :
    Ptr.add_ref s i =
      some (c.refs, s.setC i { c with refs := c.refs + 1 }) := by
  simp [Ptr.add_ref, hc, ChunkState.add_ref, hlt]

theorem add_ref_overflow (s : ListState) (i : Nat) (c : ChunkState)
    (hc : s.getC i = some c) (heq : c.refs = REF_COUNT) :
    Ptr.add_ref s i = none := by
  simp [Ptr.add_ref, hc, ChunkState.add_ref, heq]

theorem remove_ref_underflow (s : ListState) (i : Nat) (c : ChunkState)
    (hc : s.getC i = some c) (heq : c.refs = 0) :
    Ptr.remove_ref s i = none := by
  simp [Ptr.remove_ref, hc, ChunkState.remove_ref, heq]

theorem remove_ref_many (s : ListState) (i : Nat) (c : ChunkState)
    (hc : s.getC i = some c) (hpos : c.refs ≠ 0) (hne1 : c.refs ≠ 1) :
    Ptr.remove_ref s i =
      some (c.refs, s.setC i { c with refs := c.refs - 1 }) := by
  simp [Ptr.remove_ref, hc, ChunkState.remove_ref, hpos, hne1]

theorem remove_ref_last_current (s : ListState) (i : Nat) (c : ChunkState)
    (hc : s.getC i = some c) (h1 : c.refs = 1) (hcur : c.current = true) :
    Ptr.remove_ref s i =
      some (1, s.setC i { c with refs := 0, bump := c.start + c.size }) := by
  have hpos : c.refs ≠ 0 := by omega
  have hrm : c.remove_ref = some (1, { c with refs := 0 }) := by
    simp only [ChunkState.remove_ref, hpos, if_false]
    rw [h1]
  simp only [Ptr.remove_ref, hc, hrm, Chunk.reset_bump, setC_setC,
    ChunkState.is_current]
  simp [hcur]

theorem remove_ref_last_push (s : ListState) (i : Nat) (c : ChunkState)
    (hc : s.getC i = some c) (h1 : c.refs = 1) (hcur : c.current = false)
    (hfree : c.free = false) :
    Ptr.remove_ref s i = some (1,
      pushedState
        (s.setC i { c with refs := 0, bump := c.start + c.size }) i
        { c with refs := 0, bump := c.start + c.size }) := by
  have hpos : c.refs ≠ 0 := by omega
  have hlen : i < s.chunks.length := getC_lt s i c hc
  have hrm : c.remove_ref = some (1, { c with refs := 0 }) := by
    simp only [ChunkState.remove_ref, hpos, if_false]
    rw [h1]
  have hpush := push_ok
    (s.setC i { c with refs := 0, bump := c.start + c.size }) i
    { c with refs := 0, bump := c.start + c.size }
    (getC_setC_self s i _ hlen) hfree hcur rfl
  rw [hcur] at hpush
  simp only [Ptr.remove_ref, hc, hrm, Chunk.reset_bump, setC_setC,
    ChunkState.is_current, Chunk.free]
  simp only [hcur, Bool.false_eq_true, if_false, if_true, if_pos]
  rw [hpush]

/-! ### Invariant preservation: handle construction, clone and drop -/

theorem pushedState_setC (s : ListState) (i : Nat) (a c : ChunkState) :
    pushedState (s.setC i a) i c = pushedState s i c := by
  simp [pushedState, ListState.setC, List.set_set]

theorem handleRep_erase (s : ListState) (i : Nat) (c c' : ChunkState)
    (hrep : HandleRep s) (hc : s.getC i = some c) (hmem : i ∈ s.handles)
    (hrefs : c'.refs = c.refs - 1) :
    HandleRep { s.setC i c' with handles := s.handles.erase i } := by
  obtain ⟨hhb, hhc⟩ := hrep
  have hlen : i < s.chunks.length := getC_lt s i c hc
  constructor
  · intro j hj
    have hj2 : j ∈ s.handles := List.mem_of_mem_erase hj
    have := hhb j hj2
    simpa [ListState.setC] using this
  · intro j d hj
    show d.refs = (s.handles.erase i).count j
    by_cases hij : i = j
    · subst hij
      have hg := getC_setC_self s i c' hlen
      rw [ListState.getC] at hg
      rw [show ({ s.setC i c' with handles := s.handles.erase i } :
          ListState).chunks = (s.setC i c').chunks from rfl] at hj
      rw [hg] at hj
      have hdeq := Option.some.inj hj
      rw [← hdeq, hrefs, List.count_erase_self]
      rw [ListState.getC] at hc
      rw [hhc i c hc]
    · have heq := getC_setC_ne s i j c' hij
      rw [ListState.getC, ListState.getC] at heq
      rw [show ({ s.setC i c' with handles := s.handles.erase i } :
          ListState).chunks = (s.setC i c').chunks from rfl] at hj
      rw [heq] at hj
      rw [List.count_erase_of_ne (fun hji => hij hji.symm)]
      exact hhc j d hj

theorem pushedState_eq_raw (s : ListState) (i : Nat) (c : ChunkState) :
    pushedState s i c =
      pushedRaw s i { c with next_free := s.freeTop, free := true } := rfl

theorem freeListRep_push_generic (s : ListState) (i : Nat) (b : ChunkState)
    (hrep : FreeListRep s) (hlen : i < s.chunks.length)
    (hnotin : i ∉ s.freeStack)
    (hbfree : b.free = true) (hbnext : b.next_free = s.freeTop) :
    FreeListRep (pushedRaw s i b) := by
  obtain ⟨hft, hnd, hfb, hfm, hfl⟩ := hrep
  refine ⟨by simp [pushedRaw], ?_, ?_, ?_, ?_⟩
  · simpa [pushedRaw, hnotin] using hnd
  · intro j hj
    simp only [pushedRaw] at hj
    rcases List.mem_cons.mp hj with h | h
    · subst h
      simpa [pushedRaw] using hlen
    · simpa [pushedRaw] using hfb j h
  · intro j d hj
    simp only [pushedRaw] at hj ⊢
    by_cases hij : i = j
    · subst hij
      rw [List.getElem?_set_self hlen] at hj
      have hdeq := Option.some.inj hj
      rw [← hdeq, hbfree]
      simp
    · rw [List.getElem?_set_ne hij] at hj
      have := hfm j d hj
      rw [this]
      simp only [List.mem_cons]
      constructor
      · exact fun h => Or.inr h
      · rintro (h | h)
        · exact absurd h.symm hij
        · exact h
  · intro k hk
    simp only [pushedRaw] at hk ⊢
    match k with
    | 0 =>
      simp only [List.getElem_cons_zero, List.getElem?_cons_succ,
        List.getElem?_cons_zero]
      rw [List.getElem?_set_self hlen]
      simp only [Option.map_some']
      rw [hbnext, hft, List.head?_eq_getElem?]
    | k + 1 =>
      have hk' : k < s.freeStack.length := by
        simpa using hk
      have hne : i ≠ s.freeStack[k] := by
        intro h
        exact hnotin (h ▸ List.getElem_mem hk')
      simp only [List.getElem_cons_succ, List.getElem?_cons_succ]
      rw [List.getElem?_set_ne hne]
      exact hfl k hk'

theorem addHandle_inv (s : ListState) (i : Nat) (c : ChunkState)
    (hinv : Inv s) (hc : s.getC i = some c) (hfree : c.free = false) :
    Inv { s.setC i { c with refs := c.refs + 1 } with
          handles := i :: s.handles } := by
  obtain ⟨⟨hpow, hwf, hh, hfr⟩, hcr⟩ := hinv
  have hlen : i < s.chunks.length := getC_lt s i c hc
  have hwfc : WfChunk s.size { c with refs := c.refs + 1 } := by
    obtain ⟨a1, a2, a3, a4, a5, a6, _⟩ := hwf c (mem_of_getElem? hc)
    refine ⟨a1, a2, a3, a4, a5, a6, fun hf => ?_⟩
    exfalso
    have : c.free = true := hf
    rw [hfree] at this
    exact Bool.false_ne_true this
  refine ⟨⟨hpow, ?_, ⟨?_, ?_⟩, ?_⟩, ?_⟩
  · exact wf_setC s i c _ hwf hc hwfc
  · intro j hj
    rcases List.mem_cons.mp hj with h | h
    · subst h
      simpa [ListState.setC] using hlen
    · have := hh.1 j h
      simpa [ListState.setC] using this
  · intro j d hj
    show d.refs = (i :: s.handles).count j
    by_cases hij : i = j
    · subst hij
      have hg := getC_setC_self s i { c with refs := c.refs + 1 } hlen
      rw [ListState.getC] at hg
      rw [show ({ s.setC i { c with refs := c.refs + 1 } with
          handles := i :: s.handles } : ListState).chunks =
          (s.setC i { c with refs := c.refs + 1 }).chunks from rfl] at hj
      rw [hg] at hj
      have hdeq := Option.some.inj hj
      rw [← hdeq]
      show c.refs + 1 = (i :: s.handles).count i
      rw [List.count_cons_self]
      rw [ListState.getC] at hc
      rw [hh.2 i c hc]
    · have heq := getC_setC_ne s i j { c with refs := c.refs + 1 } hij
      rw [ListState.getC, ListState.getC] at heq
      rw [show ({ s.setC i { c with refs := c.refs + 1 } with
          handles := i :: s.handles } : ListState).chunks =
          (s.setC i { c with refs := c.refs + 1 }).chunks from rfl] at hj
      rw [heq] at hj
      rw [List.count_cons_of_ne (fun hji => hij hji.symm)]
      exact hh.2 j d hj
  · exact freeListRep_setC s i c _ hfr hc rfl rfl
  · exact currentRep_setC_same s i c _ hcr hc rfl

/-! ### The invariant holds in every reachable state -/

theorem empty_inv (size : Nat) (s : ListState)
    (h : ChunkList.empty size = some s) : Inv s := by
  unfold ChunkList.empty at h
  by_cases hp : is_power_of_two size
  · rw [if_pos hp] at h
    have hs := Option.some.inj h
    subst hs
    refine ⟨⟨hp, ?_, ⟨?_, ?_⟩, ?_, ?_, ?_, ?_, ?_⟩, ?_, ?_⟩
    · intro c hc
      exact absurd hc (List.not_mem_nil c)
    · intro j hj
      exact absurd hj (List.not_mem_nil j)
    · intro j d hj
      exact absurd hj (by simp)
    · rfl
    · exact List.nodup_nil
    · intro j hj
      exact absurd hj (List.not_mem_nil j)
    · intro j d hj
      exact absurd hj (by simp)
    · intro k hk
      exact absurd hk (by simp)
    · intro j hj
      exact absurd hj (by simp)
    · intro j d hj
      exact absurd hj (by simp)
  · rw [if_neg hp] at h
    exact Option.noConfusion h

theorem step_inv (s s' : ListState) (op : Op) (hinv : Inv s)
    (h : step s op = some s') : Inv s' := by
  cases op with
  | reserve starts =>
    simp only [step] at h
    obtain ⟨hinvc', _, _, _, hcr', _⟩ := reserve_inv starts s s' hinv.1 h
    exact ⟨hinvc', hcr' hinv.2⟩
  | allocHandle sz al start =>
    simp only [step] at h
    split at h
    case isFalse => exact Option.noConfusion h
    case isTrue hguard =>
      obtain ⟨hpow2, hszle, halle⟩ := hguard
      obtain ⟨k, hk⟩ := is_power_of_two_spec al hpow2
      cases halloc : ChunkList.allocate s sz al start with
      | none =>
        rw [halloc] at h
        exact Option.noConfusion h
      | some q =>
        obtain ⟨p, s₁⟩ := q
        obtain ⟨pi, pp⟩ := p
        simp only [halloc] at h
        obtain ⟨hinv1, hhand1, hsize1, hcur1, c, hgc, hcc, hcf, hbp, _, _, _⟩ :=
          allocate_inv s sz al k start pi pp s₁ hinv hszle hk halle halloc
        simp only [Boxed.new, RefMut.new] at h
        cases hadd : Ptr.add_ref s₁ pi with
        | none =>
          rw [hadd] at h
          exact Option.noConfusion h
        | some q2 =>
          obtain ⟨old, s₂⟩ := q2
          simp only [hadd] at h
          by_cases hmax : c.refs = REF_COUNT
          · rw [add_ref_overflow s₁ pi c hgc hmax] at hadd
            exact Option.noConfusion hadd
          · rw [add_ref_char s₁ pi c hgc hmax] at hadd
            have hq := Option.some.inj hadd
            injection hq with ho hs₂
            have hs₂' := hs₂.symm
            subst hs₂'
            have hs' := Option.some.inj h
            subst hs'
            exact addHandle_inv s₁ pi c hinv1 hgc hcf
  | cloneHandle i =>
    simp only [step] at h
    split at h
    case isFalse => exact Option.noConfusion h
    case isTrue hmem =>
      obtain ⟨⟨hpow, hwf, ⟨hhb, hhc⟩, hfr⟩, hcr⟩ := hinv
      have hlen : i < s.chunks.length := hhb i hmem
      obtain ⟨c, hc⟩ : ∃ c, s.getC i = some c := by
        rw [ListState.getC, List.getElem?_eq_getElem hlen]
        exact ⟨_, rfl⟩
      have hcount : 0 < s.handles.count i := List.count_pos_iff.mpr hmem
      have hrefs : c.refs = s.handles.count i := hhc i c hc
      have hfree : c.free = false := by
        by_contra hcon
        have hft : c.free = true := by
          cases hq : c.free
          · exact absurd hq hcon
          · rfl
        obtain ⟨_, _, _, _, _, _, hp1⟩ := hwf c (mem_of_getElem? hc)
        obtain ⟨_, hz, _⟩ := hp1 hft
        omega
      simp only [Ref.new] at h
      cases hadd : Ptr.add_ref s i with
      | none =>
        rw [hadd] at h
        exact Option.noConfusion h
      | some q2 =>
        obtain ⟨old, s₂⟩ := q2
        simp only [hadd] at h
        by_cases hmax : c.refs = REF_COUNT
        · rw [add_ref_overflow s i c hc hmax] at hadd
          exact Option.noConfusion hadd
        · rw [add_ref_char s i c hc hmax] at hadd
          have hq := Option.some.inj hadd
          injection hq with ho hs₂
          have hs₂' := hs₂.symm
          subst hs₂'
          have hs' := Option.some.inj h
          subst hs'
          exact addHandle_inv s i c ⟨⟨hpow, hwf, ⟨hhb, hhc⟩, hfr⟩, hcr⟩ hc
            hfree
  | convertHandle i =>
    simp only [step] at h
    split at h
    case isFalse => exact Option.noConfusion h
    case isTrue =>
      have hs' := Option.some.inj h
      subst hs'
      exact hinv
  | dropHandle i =>
    simp only [step] at h
    split at h
    case isFalse => exact Option.noConfusion h
    case isTrue hmem =>
      obtain ⟨⟨hpow, hwf, ⟨hhb, hhc⟩, hfr⟩, hcr⟩ := hinv
      have hlen : i < s.chunks.length := hhb i hmem
      obtain ⟨c, hc⟩ : ∃ c, s.getC i = some c := by
        rw [ListState.getC, List.getElem?_eq_getElem hlen]
        exact ⟨_, rfl⟩
      have hcount : 0 < s.handles.count i := List.count_pos_iff.mpr hmem
      have hrefs : c.refs = s.handles.count i := hhc i c hc
      have hfree : c.free = false := by
        by_contra hcon
        have hft : c.free = true := by
          cases hq : c.free
          · exact absurd hq hcon
          · rfl
        obtain ⟨_, _, _, _, _, _, hp1⟩ := hwf c (mem_of_getElem? hc)
        obtain ⟨_, hz, _⟩ := hp1 hft
        omega
      cases hrm : Ptr.remove_ref s i with
      | none =>
        rw [hrm] at h
        exact Option.noConfusion h
      | some q =>
        obtain ⟨old, s₁⟩ := q
        simp only [hrm] at h
        have hs' := Option.some.inj h
        subst hs'
        by_cases h1 : c.refs = 1
        · cases hcurc : c.current with
          | true =>
            have heq := (remove_ref_last_current s i c hc h1 hcurc).symm.trans
              hrm
            injection Option.some.inj heq with ho hs₁
            have hs₁' := hs₁.symm
            subst hs₁'
            have hwfc : WfChunk s.size
                { c with refs := 0, bump := c.start + c.size } := by
              obtain ⟨a1, a2, a3, a4, a5, a6, _⟩ := hwf c (mem_of_getElem? hc)
              refine ⟨a1, a2, a3, a4, by simp, by simp [a1],
                fun hf => ?_⟩
              exfalso
              have : c.free = true := hf
              rw [hfree] at this
              exact Bool.false_ne_true this
            refine ⟨⟨hpow, ?_, ?_, ?_⟩, ?_⟩
            · exact wf_setC s i c _ hwf hc hwfc
            · exact handleRep_erase s i c _ ⟨hhb, hhc⟩ hc hmem (by simp [h1])
            · exact freeListRep_setC s i c _ hfr hc rfl rfl
            · exact currentRep_setC_same s i c _ hcr hc rfl
          | false =>
            have heq := (remove_ref_last_push s i c hc h1 hcurc hfree)
              |>.symm.trans hrm
            injection Option.some.inj heq with ho hs₁
            have hs₁' := hs₁.symm
            subst hs₁'
            rw [pushedState_setC, pushedState_eq_raw] at *
            have hnotin : i ∉ s.freeStack := by
              intro hmem2
              obtain ⟨_, _, _, hfm, _⟩ := hfr
              have := (hfm i c hc).mpr hmem2
              rw [hfree] at this
              exact Bool.false_ne_true this
            have hwfb : WfChunk s.size
                { c with refs := 0, bump := c.start + c.size,
                         next_free := s.freeTop, free := true } := by
              obtain ⟨a1, a2, a3, a4, a5, a6, _⟩ := hwf c (mem_of_getElem? hc)
              exact ⟨a1, a2, a3, a4, by simp, by simp [a1],
                fun _ => ⟨hcurc, rfl, rfl⟩⟩
            refine ⟨⟨hpow, ?_, ?_, ?_⟩, ?_⟩
            · exact wf_setC s i c _ hwf hc hwfb
            · exact handleRep_erase s i c _ ⟨hhb, hhc⟩ hc hmem (by simp [h1])
            · exact freeListRep_push_generic s i _ hfr hlen hnotin rfl rfl
            · exact currentRep_setC_same s i c _ hcr hc rfl
        · have heq := (remove_ref_many s i c hc (by omega) h1).symm.trans hrm
          injection Option.some.inj heq with ho hs₁
          have hs₁' := hs₁.symm
          subst hs₁'
          have hwfc : WfChunk s.size { c with refs := c.refs - 1 } := by
            obtain ⟨a1, a2, a3, a4, a5, a6, _⟩ := hwf c (mem_of_getElem? hc)
            refine ⟨a1, a2, a3, a4, a5, a6, fun hf => ?_⟩
            exfalso
            have : c.free = true := hf
            rw [hfree] at this
            exact Bool.false_ne_true this
          refine ⟨⟨hpow, ?_, ?_, ?_⟩, ?_⟩
          · exact wf_setC s i c _ hwf hc hwfc
          · exact handleRep_erase s i c _ ⟨hhb, hhc⟩ hc hmem rfl
          · exact freeListRep_setC s i c _ hfr hc rfl rfl
          · exact currentRep_setC_same s i c _ hcr hc rfl

theorem reachable_inv (s : ListState) (h : Reachable s) : Inv s := by
  induction h with
  | init size s hs => exact empty_inv size s hs
  | next s s' op _ hstep ih => exact step_inv s s' op ih hstep

theorem tzGo_pow (fuel k : Nat) (h : k < fuel) : tzGo fuel (2 ^ k) = k := by
  induction fuel generalizing k with
  | zero => omega
  | succ fuel ih =>
    match k with
    | 0 => simp [tzGo]
    | k + 1 =>
      have hmod : 2 ^ (k + 1) % 2 = 0 := by
        rw [pow_succ]
        omega
      have hdiv : 2 ^ (k + 1) / 2 = 2 ^ k := by
        rw [pow_succ]
        omega
      simp only [tzGo, hmod]
      rw [if_neg (by omega), hdiv, ih k (by omega)]

theorem bitLenGo_spec (fuel : Nat) : ∀ n, 0 < n → n < 2 ^ fuel →
    2 ^ (bitLenGo fuel n - 1) ≤ n ∧ n < 2 ^ bitLenGo fuel n ∧
    1 ≤ bitLenGo fuel n := by
  induction fuel with
  | zero =>
    intro n h0 h1
    simp at h1
    omega
  | succ fuel ih =>
    intro n h0 h1
    have hne : n ≠ 0 := by omega
    simp only [bitLenGo, hne, if_false]
    match hn : n with
    | 1 =>
      have : bitLenGo fuel 0 = 0 := by
        cases fuel <;> simp [bitLenGo]
      rw [show (1 : Nat) / 2 = 0 by omega, this]
      norm_num
    | m + 2 =>
      have hd0 : 0 < (m + 2) / 2 := by omega
      have hdlt : (m + 2) / 2 < 2 ^ fuel := by
        rw [pow_succ] at h1
        omega
      obtain ⟨ih1, ih2, ih3⟩ := ih ((m + 2) / 2) hd0 hdlt
      set B := bitLenGo fuel ((m + 2) / 2) with hB
      have hp1 : 2 ^ B = 2 * 2 ^ (B - 1) := by
        rw [← pow_succ']
        congr 1
        omega
      have hp2 : 2 ^ (B + 1) = 2 * 2 ^ B := by
        rw [← pow_succ']
      refine ⟨?_, ?_, by omega⟩
      · have : B + 1 - 1 = B := by omega
        rw [this]
        omega
      · rw [hp2]
        omega

theorem next_power_of_two_eq (n : Nat) (h : n ≤ 2 ^ 63) :
    next_power_of_two n = 2 ^ Nat.clog 2 n := by
  unfold next_power_of_two
  by_cases h1 : n ≤ 1
  · rw [if_pos h1]
    match n, h1 with
    | 0, _ =>
      rw [Nat.clog_zero_right]
      rfl
    | 1, _ =>
      rw [Nat.clog_one_right]
      rfl
  · rw [if_neg h1]
    have h0 : 0 < n - 1 := by omega
    have hlt : n - 1 < 2 ^ 64 := by
      have : (2 : Nat) ^ 63 < 2 ^ 64 := by norm_num
      omega
    obtain ⟨hb1, hb2, hb3⟩ := bitLenGo_spec 64 (n - 1) h0 hlt
    set B := bitLenGo 64 (n - 1) with hB
    congr 1
    have hle : Nat.clog 2 n ≤ B :=
      (Nat.le_pow_iff_clog_le (by norm_num)).mp (by omega)
    have hge : B ≤ Nat.clog 2 n := by
      have hlt2 : 2 ^ (B - 1) < n := by omega
      have := (Nat.pow_lt_iff_lt_clog (by norm_num)).mp hlt2
      omega
    omega

theorem MIN_BLOCK_POW_eq : MIN_BLOCK_POW = 8 := rfl

theorem size_to_index_eq (n : Nat) (h : n ≤ 2 ^ 63) :
    size_to_index n = Nat.clog 2 n - Nat.log 2 MIN_BLOCK_SIZE := by
  unfold size_to_index
  rw [next_power_of_two_eq n h]
  have hclog : Nat.clog 2 n ≤ 63 := by
    apply (Nat.le_pow_iff_clog_le (by norm_num)).mp
    calc n ≤ 2 ^ 63 := h
      _ ≤ 2 ^ 63 := le_rfl
  rw [show trailing_zeros (2 ^ Nat.clog 2 n) = Nat.clog 2 n from
    tzGo_pow 64 _ (by omega)]
  rw [show Nat.log 2 MIN_BLOCK_SIZE = 8 from by
    rw [show MIN_BLOCK_SIZE = 2 ^ 8 from rfl]
    exact Nat.log_pow (by norm_num) 8]
  rfl

theorem index_to_chunk_size_eq (i : Nat) :
    index_to_chunk_size i = MIN_BLOCK_SIZE * 2 ^ i := by
  unfold index_to_chunk_size
  rw [Nat.one_shiftLeft, MIN_BLOCK_POW_eq, pow_add,
    show MIN_BLOCK_SIZE = 2 ^ 8 from rfl]
  ring

/-- C8: on a `u64` flag word, `add_ref` aborts exactly when the chunk's
reference count equals `REFCOUNT_MAX = REF_COUNT = 2 ^ 62 - 1`, and
otherwise increments the count by one without touching the CURRENT or FREE
bits; `remove_ref` aborts exactly when the count is zero, and otherwise
decrements it by one without touching the flag bits; both return the
previous count. -/
theorem C8_refcount_ops (flags : Nat) (hflags : flags < U64) :
    REF_COUNT = 2 ^ 62 - 1 ∧
    (addRefOf flags = none ↔ refsOf flags = REF_COUNT) ∧
    (removeRefOf flags = none ↔ refsOf flags = 0) ∧
    (∀ prev flags', addRefOf flags = some (prev, flags') →
      prev = refsOf flags ∧ refsOf flags' = refsOf flags + 1 ∧
      flags' &&& CURRENT_BIT = flags &&& CURRENT_BIT ∧
      flags' &&& FREE_BIT = flags &&& FREE_BIT) ∧
    (∀ prev flags', removeRefOf flags = some (prev, flags') →
      prev = refsOf flags ∧ refsOf flags' = refsOf flags - 1 ∧
      flags' &&& CURRENT_BIT = flags &&& CURRENT_BIT ∧
      flags' &&& FREE_BIT = flags &&& FREE_BIT) := by
  refine ⟨rfl, addRefOf_eq_none_iff flags, removeRefOf_eq_none_iff flags,
    ?_, ?_⟩
  · intro prev flags' h
    obtain ⟨h1, _, h3, h4, h5, _, _, _⟩ := addRefOf_sound flags prev flags'
      hflags h
    exact ⟨h1, h3, h5, h4⟩
  · intro prev flags' h
    obtain ⟨h1, _, h3, h4, h5, _, _, _⟩ := removeRefOf_sound flags prev
      flags' hflags h
    exact ⟨h1, h3, h5, h4⟩

theorem C8_refcount_ops_witness :
    REF_COUNT = 2 ^ 62 - 1 ∧
    (addRefOf 5 = none ↔ refsOf 5 = REF_COUNT) ∧
    (removeRefOf 5 = none ↔ refsOf 5 = 0) ∧
    (∀ prev flags', addRefOf 5 = some (prev, flags') →
      prev = refsOf 5 ∧ refsOf flags' = refsOf 5 + 1 ∧
      flags' &&& CURRENT_BIT = 5 &&& CURRENT_BIT ∧
      flags' &&& FREE_BIT = 5 &&& FREE_BIT) ∧
    (∀ prev flags', removeRefOf 5 = some (prev, flags') →
      prev = refsOf 5 ∧ refsOf flags' = refsOf 5 - 1 ∧
      flags' &&& CURRENT_BIT = 5 &&& CURRENT_BIT ∧
      flags' &&& FREE_BIT = 5 &&& FREE_BIT) :=
  C8_refcount_ops 5 (by decide)

/-- C2: for every chunk state and every layout whose alignment is a power
of two, `can_fit` returns true exactly when the downward-bump computation
succeeds: `bump - size` does not underflow, the result is aligned down by
the mask `!(align - 1)` (which equals subtracting `(bump - size) % align`),
and the masked result is non-null and at least `start`; `alloc_layout`
returns exactly that masked address and stores it in `bump`, and it panics
exactly when `can_fit` is false. -/
theorem C2_bump_computation (c : ChunkState) (sz al k : Nat)
    (hal : al = 2 ^ k) (hk : k ≤ 64) (hbump : c.bump < 2 ^ 64) :
    ((c.bump - sz) &&& not64 (al - 1) =
      (c.bump - sz) - (c.bump - sz) % al) ∧
    (Chunk.can_fit c sz al = true ↔
      (sz ≤ c.bump ∧ (c.bump - sz) &&& not64 (al - 1) ≠ 0 ∧
        c.start ≤ (c.bump - sz) &&& not64 (al - 1))) ∧
    (Chunk.can_fit c sz al = true →
      Chunk.alloc_layout c sz al =
        some ((c.bump - sz) &&& not64 (al - 1),
          { c with bump := (c.bump - sz) &&& not64 (al - 1) })) ∧
    (Chunk.can_fit c sz al = false → Chunk.alloc_layout c sz al = none) := by
  have hmask : (c.bump - sz) &&& not64 (al - 1) =
      (c.bump - sz) - (c.bump - sz) % al := by
    rw [hal]
    exact and_not64_eq (c.bump - sz) k (by omega) hk
  have hchar := calc_pointer_char c sz al k hal hk hbump
  refine ⟨hmask, ?_, ?_, ?_⟩
  · rw [Chunk.can_fit, hchar, hmask]
    by_cases hcond : sz ≤ c.bump ∧
        ((c.bump - sz) - (c.bump - sz) % al) ≠ 0 ∧
        c.start ≤ ((c.bump - sz) - (c.bump - sz) % al)
    · rw [if_pos hcond]
      simpa using hcond
    · rw [if_neg hcond]
      simpa using hcond
  · intro hfit
    rw [Chunk.can_fit] at hfit
    unfold Chunk.alloc_layout
    cases hcp : Chunk.calc_pointer c sz al with
    | none =>
      rw [hcp] at hfit
      exact absurd hfit (by simp)
    | some p =>
      rw [hchar] at hcp
      by_cases hcond : sz ≤ c.bump ∧
          ((c.bump - sz) - (c.bump - sz) % al) ≠ 0 ∧
          c.start ≤ ((c.bump - sz) - (c.bump - sz) % al)
      · rw [if_pos hcond] at hcp
        have hp := Option.some.inj hcp
        rw [← hp, hmask]
      · rw [if_neg hcond] at hcp
        exact Option.noConfusion hcp
  · intro hnofit
    rw [Chunk.can_fit] at hnofit
    unfold Chunk.alloc_layout
    cases hcp : Chunk.calc_pointer c sz al with
    | none => rfl
    | some p =>
      rw [hcp] at hnofit
      exact absurd hnofit (by simp)

theorem C2_bump_computation_witness :
    ((1280 - 8) &&& not64 (8 - 1) = (1280 - 8) - (1280 - 8) % 8) ∧
    (Chunk.can_fit
        { size := 256, index := 0, start := 1024, bump := 1280,
          next := none, next_free := none, current := true, free := false,
          refs := 1 } 8 8 = true ↔
      (8 ≤ 1280 ∧ (1280 - 8) &&& not64 (8 - 1) ≠ 0 ∧
        1024 ≤ (1280 - 8) &&& not64 (8 - 1))) ∧
    (Chunk.can_fit
        { size := 256, index := 0, start := 1024, bump := 1280,
          next := none, next_free := none, current := true, free := false,
          refs := 1 } 8 8 = true →
      Chunk.alloc_layout
        { size := 256, index := 0, start := 1024, bump := 1280,
          next := none, next_free := none, current := true, free := false,
          refs := 1 } 8 8 =
        some ((1280 - 8) &&& not64 (8 - 1),
          { size := 256, index := 0, start := 1024,
            bump := (1280 - 8) &&& not64 (8 - 1), next := none,
            next_free := none, current := true, free := false,
            refs := 1 })) ∧
    (Chunk.can_fit
        { size := 256, index := 0, start := 1024, bump := 1280,
          next := none, next_free := none, current := true, free := false,
          refs := 1 } 8 8 = false →
      Chunk.alloc_layout
        { size := 256, index := 0, start := 1024, bump := 1280,
          next := none, next_free := none, current := true, free := false,
          refs := 1 } 8 8 = none) :=
  C2_bump_computation
    { size := 256, index := 0, start := 1024, bump := 1280, next := none,
      next_free := none, current := true, free := false, refs := 1 }
    8 8 3 (by decide) (by decide) (by decide)

/-- C4: `FreeList::push(c)` errors exactly on a violation of invariant 7,
checked in source order — `AlreadyFree` if the FREE bit is set, else
`IsCurrent` if the CURRENT bit is set, else `RefCount n` (the spec's
`HasReferences(n)`) if the count `n` is positive — and on any error the
state (free list and chunk) is returned unchanged; otherwise it sets the
chunk's `next_free` to the current top, flips its FREE bit to 1, sets the
top to the chunk, and returns `Ok`. -/
theorem C4_push_checks (s : ListState) (i : Nat) (c : ChunkState)
    (hc : s.getC i = some c) :
    (c.free = true → FreeList.push s i = some (.error .AlreadyFree, s)) ∧
    (c.free = false → c.current = true →
      FreeList.push s i = some (.error .IsCurrent, s)) ∧
    (c.free = false → c.current = false → c.refs ≠ 0 →
      FreeList.push s i = some (.error (.RefCount c.refs), s)) ∧
    (c.free = false → c.current = false → c.refs = 0 →
      ∃ s', FreeList.push s i = some (.ok (), s') ∧
        s'.getC i = some { c with next_free := s.freeTop, free := true } ∧
        s'.freeTop = some i) := by
  refine ⟨fun hf => push_err_already_free s i c hc hf,
    fun hf hcur => push_err_is_current s i c hc hf hcur,
    fun hf hcur hr => push_err_refcount s i c hc hf hcur hr,
    fun hf hcur hr => ?_⟩
  refine ⟨pushedState s i c, push_ok s i c hc hf hcur hr, ?_, rfl⟩
  exact pushed_getC_self s i c (getC_lt s i c hc)

theorem C4_push_checks_witness :
    (wChunk.free = true →
      FreeList.push wState 0 = some (.error .AlreadyFree, wState)) ∧
    (wChunk.free = false → wChunk.current = true →
      FreeList.push wState 0 = some (.error .IsCurrent, wState)) ∧
    (wChunk.free = false → wChunk.current = false → wChunk.refs ≠ 0 →
      FreeList.push wState 0 =
        some (.error (.RefCount wChunk.refs), wState)) ∧
    (wChunk.free = false → wChunk.current = false → wChunk.refs = 0 →
      ∃ s', FreeList.push wState 0 = some (.ok (), s') ∧
        s'.getC 0 =
          some { wChunk with next_free := wState.freeTop, free := true } ∧
        s'.freeTop = some 0) :=
  C4_push_checks wState 0 wChunk rfl

/-- C5: `FreeList::pop()` on an empty free list returns `None` and leaves
the list unchanged; on a non-empty list it asserts the popped top chunk's
FREE bit (failure aborts), promotes the popped chunk's `next_free` to the
new top, clears the popped chunk's FREE bit and `next_free`, and returns
the chunk with FREE cleared and — given invariant P1 for it, i.e. its
count was zero while free — reference count still zero. -/
theorem C5_pop (s : ListState) :
    (s.freeTop = none → FreeList.pop s = some (none, s)) ∧
    (∀ i c, s.freeTop = some i → s.getC i = some c → c.free = false →
      FreeList.pop s = none) ∧
    (∀ i c, s.freeTop = some i → s.getC i = some c → c.free = true →
      c.refs = 0 →
      ∃ s' c', FreeList.pop s = some (some i, s') ∧
        s'.getC i = some c' ∧ c'.free = false ∧ c'.next_free = none ∧
        c'.refs = 0 ∧ s'.freeTop = c.next_free) := by
  refine ⟨fun h => pop_empty s h,
    fun i c hTop hc hf => pop_assert_fail s i c hTop hc hf,
    fun i c hTop hc hf hr => ?_⟩
  refine ⟨poppedState s i c, { c with next_free := none, free := false },
    pop_some s i c hTop hc hf, ?_, rfl, rfl, hr, rfl⟩
  exact popped_getC_self s i c (getC_lt s i c hc)

/-- C10: a successful `FreeList::push` writes only the pushed chunk's FREE
bit and `next_free` link and the list's top cell: the chunk's bump cursor,
size, index, start address, `next` link, reference count and CURRENT bit
are unchanged, every other chunk is unchanged, and the list's other fields
are unchanged. In particular push never resets the bump cursor; in the
handle-drop path (`Ptr::remove_ref` reaching zero on a non-current chunk)
the chunk is already reset before the push, as the final conjunct shows. -/
theorem C10_push_frame (s : ListState) (i : Nat) (c : ChunkState)
    (s' : ListState) (hc : s.getC i = some c)
    (h : FreeList.push s i = some (.ok (), s')) :
    (∃ c', s'.getC i = some c' ∧
      c'.bump = c.bump ∧ c'.size = c.size ∧ c'.index = c.index ∧
      c'.start = c.start ∧ c'.next = c.next ∧ c'.refs = c.refs ∧
      c'.current = c.current ∧ c'.free = true ∧
      c'.next_free = s.freeTop) ∧
    (∀ j, j ≠ i → s'.getC j = s.getC j) ∧
    s'.head = s.head ∧ s'.current = s.current ∧ s'.size = s.size ∧
    s'.len = s.len ∧ s'.handles = s.handles ∧ s'.freeTop = some i ∧
    (∀ (t : ListState) (j : Nat) (d : ChunkState),
      t.getC j = some d → d.refs = 1 → d.current = false →
      d.free = false →
      Ptr.remove_ref t j = some (1,
        pushedState
          (t.setC j { d with refs := 0, bump := d.start + d.size }) j
          { d with refs := 0, bump := d.start + d.size })) := by
  have hfree : c.free = false := by
    by_contra hcon
    have hf : c.free = true := by
      cases hq : c.free
      · exact absurd hq hcon
      · rfl
    rw [push_err_already_free s i c hc hf] at h
    have := Option.some.inj h
    exact Except.noConfusion (congrArg Prod.fst this)
  have hcur : c.current = false := by
    by_contra hcon
    have hf : c.current = true := by
      cases hq : c.current
      · exact absurd hq hcon
      · rfl
    rw [push_err_is_current s i c hc hfree hf] at h
    have := Option.some.inj h
    exact Except.noConfusion (congrArg Prod.fst this)
  have hrefs : c.refs = 0 := by
    by_contra hcon
    rw [push_err_refcount s i c hc hfree hcur hcon] at h
    have := Option.some.inj h
    exact Except.noConfusion (congrArg Prod.fst this)
  rw [push_ok s i c hc hfree hcur hrefs] at h
  have hs' := (Prod.mk.injEq .. ▸ Option.some.inj h).2
  have hs'' := hs'.symm
  subst hs''
  refine ⟨⟨{ c with next_free := s.freeTop, free := true },
    pushed_getC_self s i c (getC_lt s i c hc),
    rfl, rfl, rfl, rfl, rfl, rfl, rfl, rfl, rfl⟩, ?_, rfl, rfl, rfl, rfl,
    rfl, rfl, ?_⟩
  · intro j hj
    exact pushed_getC_ne s i j c (fun hij => hj hij.symm)
  · intro t j d hd h1 hcurd hfreed
    exact remove_ref_last_push t j d hd h1 hcurd hfreed

theorem C10_push_frame_witness :
    (∃ c', wStateF.getC 0 = some c' ∧
      c'.bump = wChunk.bump ∧ c'.size = wChunk.size ∧
      c'.index = wChunk.index ∧ c'.start = wChunk.start ∧
      c'.next = wChunk.next ∧ c'.refs = wChunk.refs ∧
      c'.current = wChunk.current ∧ c'.free = true ∧
      c'.next_free = wState.freeTop) ∧
    (∀ j, j ≠ 0 → wStateF.getC j = wState.getC j) ∧
    wStateF.head = wState.head ∧ wStateF.current = wState.current ∧
    wStateF.size = wState.size ∧ wStateF.len = wState.len ∧
    wStateF.handles = wState.handles ∧ wStateF.freeTop = some 0 ∧
    (∀ (t : ListState) (j : Nat) (d : ChunkState),
      t.getC j = some d → d.refs = 1 → d.current = false →
      d.free = false →
      Ptr.remove_ref t j = some (1,
        pushedState
          (t.setC j { d with refs := 0, bump := d.start + d.size }) j
          { d with refs := 0, bump := d.start + d.size })) :=
  C10_push_frame wState 0 wChunk wStateF rfl rfl

/-- C9: converting an `Owned` (`Boxed`) handle with `into_ref`, and
converting between the unique and shared borrow handles, never touches the
chunk state: each conversion is `ManuallyDrop` + `from_ptr`, which
transfers the one reference count held by the handle without incrementing
or decrementing it, so the chunk\'s count is unchanged at every step of the
`Owned` → `into_ref` / `into_mut` conversion chain. -/
theorem C9_conversion_refcount (s : ListState) (p : Ptr) (c : ChunkState)
    (hc : s.getC p.chunk = some c) :
    Boxed.into_ref p s = (p, s) ∧
    Boxed.into_mut p s = (p, s) ∧
    RefMut.into_ref p s = (p, s) ∧
    (((RefMut.into_ref (Boxed.into_mut p s).1
        (Boxed.into_mut p s).2).2.getC p.chunk).map ChunkState.refs =
      some c.refs) ∧
    (((Boxed.into_mut (Boxed.into_ref p s).1
        (Boxed.into_ref p s).2).2.getC p.chunk).map ChunkState.refs =
      some c.refs) := by
  refine ⟨rfl, rfl, rfl, ?_, ?_⟩ <;>
    simp [Boxed.into_ref, Boxed.into_mut, RefMut.into_ref, hc]

theorem C9_conversion_refcount_witness :
    Boxed.into_ref ⟨0, 1040⟩ wState = (⟨0, 1040⟩, wState) ∧
    Boxed.into_mut ⟨0, 1040⟩ wState = (⟨0, 1040⟩, wState) ∧
    RefMut.into_ref ⟨0, 1040⟩ wState = (⟨0, 1040⟩, wState) ∧
    (((RefMut.into_ref (Boxed.into_mut ⟨0, 1040⟩ wState).1
        (Boxed.into_mut ⟨0, 1040⟩ wState).2).2.getC
          (Ptr.mk 0 1040).chunk).map ChunkState.refs =
      some wChunk.refs) ∧
    (((Boxed.into_mut (Boxed.into_ref ⟨0, 1040⟩ wState).1
        (Boxed.into_ref ⟨0, 1040⟩ wState).2).2.getC
          (Ptr.mk 0 1040).chunk).map ChunkState.refs =
      some wChunk.refs) :=
  C9_conversion_refcount wState ⟨0, 1040⟩ wChunk rfl

/-- C1: dropping any typed handle (`Boxed`, `RefMut`, `Ref`) performs
exactly `Ptr::remove_ref` on its chunk; `remove_ref` aborts exactly when
the count is already zero, otherwise it decrements the count exactly once;
and when the previous count was 1, the bump cursor is reset to
`start + size` and then, if and only if the CURRENT bit is clear, the
chunk is pushed onto its free list, the push always succeeding (invariant
P1 for the chunk rules out FREE being set while the count is positive). -/
theorem C1_handle_drop (s : ListState) (p : Ptr) (c : ChunkState)
    (hc : s.getC p.chunk = some c) (hP1 : P1chunk c) :
    (Ref.drop s p = Ptr.remove_ref s p.chunk ∧
     RefMut.drop s p = Ptr.remove_ref s p.chunk ∧
     Boxed.drop s p = Ptr.remove_ref s p.chunk) ∧
    (Ptr.remove_ref s p.chunk = none ↔ c.refs = 0) ∧
    (∀ prev s', Ptr.remove_ref s p.chunk = some (prev, s') →
      prev = c.refs ∧ ∃ c', s'.getC p.chunk = some c' ∧
        c'.refs = c.refs - 1) ∧
    (c.refs = 1 → c.current = true →
      Ptr.remove_ref s p.chunk =
        some (1, s.setC p.chunk
          { c with refs := 0, bump := c.start + c.size })) ∧
    (c.refs = 1 → c.current = false →
      FreeList.push
          (s.setC p.chunk { c with refs := 0, bump := c.start + c.size })
          p.chunk =
        some (.ok (), pushedState
          (s.setC p.chunk { c with refs := 0, bump := c.start + c.size })
          p.chunk
          { c with refs := 0, bump := c.start + c.size }) ∧
      Ptr.remove_ref s p.chunk = some (1, pushedState
        (s.setC p.chunk { c with refs := 0, bump := c.start + c.size })
        p.chunk
        { c with refs := 0, bump := c.start + c.size })) := by
  have hlen : p.chunk < s.chunks.length := getC_lt s p.chunk c hc
  have hfree_of_pos : c.refs ≠ 0 → c.free = false := by
    intro hr
    cases hq : c.free
    · rfl
    · exact absurd (hP1 hq).2.1 hr
  refine ⟨⟨rfl, rfl, rfl⟩, ?_, ?_, ?_, ?_⟩
  · constructor
    · intro hnone
      by_contra hr
      by_cases h1 : c.refs = 1
      · have hfree := hfree_of_pos hr
        cases hq : c.current
        · rw [(remove_ref_last_push s p.chunk c hc h1 hq hfree)] at hnone
          exact Option.noConfusion hnone
        · rw [remove_ref_last_current s p.chunk c hc h1 hq] at hnone
          exact Option.noConfusion hnone
      · rw [remove_ref_many s p.chunk c hc hr h1] at hnone
        exact Option.noConfusion hnone
    · intro hr
      exact remove_ref_underflow s p.chunk c hc hr
  · intro prev s' h
    have hr : c.refs ≠ 0 := by
      intro hr0
      rw [remove_ref_underflow s p.chunk c hc hr0] at h
      exact Option.noConfusion h
    by_cases h1 : c.refs = 1
    · have hfree := hfree_of_pos hr
      cases hq : c.current
      · rw [remove_ref_last_push s p.chunk c hc h1 hq hfree] at h
        have h' := Option.some.inj h
        injection h' with hprev hs'
        have hs'' := hs'.symm
        subst hs''
        have hself := pushed_getC_self
          (s.setC p.chunk { c with refs := 0, bump := c.start + c.size })
          p.chunk { c with refs := 0, bump := c.start + c.size }
          (by simpa [ListState.setC] using hlen)
        exact ⟨by omega, ⟨_, hself, by simp [h1]⟩⟩
      · rw [remove_ref_last_current s p.chunk c hc h1 hq] at h
        have h' := Option.some.inj h
        injection h' with hprev hs'
        have hs'' := hs'.symm
        subst hs''
        exact ⟨by omega, ⟨_, getC_setC_self s p.chunk _ hlen,
          by simp [h1]⟩⟩
    · rw [remove_ref_many s p.chunk c hc hr h1] at h
      have h' := Option.some.inj h
      injection h' with hprev hs'
      have hs'' := hs'.symm
      subst hs''
      exact ⟨hprev.symm, ⟨_, getC_setC_self s p.chunk _ hlen, rfl⟩⟩
  · intro h1 hcur
    exact remove_ref_last_current s p.chunk c hc h1 hcur
  · intro h1 hcur
    have hfree := hfree_of_pos (by omega)
    refine ⟨?_, remove_ref_last_push s p.chunk c hc h1 hcur hfree⟩
    exact push_ok _ p.chunk _ (getC_setC_self s p.chunk _ hlen)
      hfree hcur rfl

theorem C1_handle_drop_witness :
    (Ref.drop wState1 ⟨0, 1040⟩ = Ptr.remove_ref wState1 0 ∧
     RefMut.drop wState1 ⟨0, 1040⟩ = Ptr.remove_ref wState1 0 ∧
     Boxed.drop wState1 ⟨0, 1040⟩ = Ptr.remove_ref wState1 0) ∧
    (Ptr.remove_ref wState1 0 = none ↔ wChunk1.refs = 0) ∧
    (∀ prev s', Ptr.remove_ref wState1 0 = some (prev, s') →
      prev = wChunk1.refs ∧ ∃ c', s'.getC 0 = some c' ∧
        c'.refs = wChunk1.refs - 1) ∧
    (wChunk1.refs = 1 → wChunk1.current = true →
      Ptr.remove_ref wState1 0 =
        some (1, wState1.setC 0
          { wChunk1 with refs := 0,
                         bump := wChunk1.start + wChunk1.size })) ∧
    (wChunk1.refs = 1 → wChunk1.current = false →
      FreeList.push
          (wState1.setC 0
            { wChunk1 with refs := 0,
                           bump := wChunk1.start + wChunk1.size }) 0 =
        some (.ok (), pushedState
          (wState1.setC 0
            { wChunk1 with refs := 0,
                           bump := wChunk1.start + wChunk1.size }) 0
          { wChunk1 with refs := 0,
                         bump := wChunk1.start + wChunk1.size }) ∧
      Ptr.remove_ref wState1 0 = some (1, pushedState
        (wState1.setC 0
          { wChunk1 with refs := 0,
                         bump := wChunk1.start + wChunk1.size }) 0
        { wChunk1 with refs := 0,
                       bump := wChunk1.start + wChunk1.size })) :=
  C1_handle_drop wState1 ⟨0, 1040⟩ wChunk1 rfl
    (fun h => Bool.noConfusion h)

/-- C3: invariant P1 holds in every state reachable through the public
interface (reserve, allocation with handle construction, handle clone,
handle conversion, handle drop — which covers chunk free, push and pop):
every FREE chunk has a clear CURRENT bit, a zero reference count, and a
bump cursor equal to `start + size`. -/
theorem C3_p1_preserved (s : ListState) (h : Reachable s) : P1 s := by
  obtain ⟨⟨_, hwf, _⟩, _⟩ := reachable_inv s h
  intro c hc
  exact (hwf c hc).2.2.2.2.2.2

theorem C3_p1_preserved_witness :
    P1 (ListState.mk 256 0 none none none [] [] []) :=
  C3_p1_preserved _ (Reachable.init 256 _ rfl)

/-- C6: under the fit precondition (`layout.size ≤ S`, `layout.align ≤ S`
with `S` the class size, alignment a power of two as the `Layout` type
guarantees), every pointer `p` returned by `allocate(layout)` on an
invariant state is aligned to `layout.align` and lies inside
`[chunk.start, chunk.start + chunk.size − layout.size]` for the chunk
recorded in the returned `Ptr`. -/
theorem C6_allocate_bounds (s : ListState) (sz al k start i p : Nat)
    (s' : ListState) (hinv : Inv s) (hal : al = 2 ^ k)
    (hsz : sz ≤ s.size) (halS : al ≤ s.size)
    (h : ChunkList.allocate s sz al start = some (⟨i, p⟩, s')) :
    ∃ c, s'.getC i = some c ∧ al ∣ p ∧ c.start ≤ p ∧
      p + sz ≤ c.start + c.size ∧ p ≤ c.start + c.size - sz := by
  obtain ⟨_, _, _, _, c, hc, _, _, _, h1, h2, h3⟩ :=
    allocate_inv s sz al k start i p s' hinv hsz hal halS h
  exact ⟨c, hc, h3, h1, h2, by omega⟩

theorem C6_allocate_bounds_witness :
    ∃ c, (ListState.mk 256 1 (some 0) (some 0) none
        [ChunkState.mk 256 0 4096 4344 none none true false 0]
        [] []).getC 0 = some c ∧
      8 ∣ 4344 ∧ c.start ≤ 4344 ∧ 4344 + 8 ≤ c.start + c.size ∧
      4344 ≤ c.start + c.size - 8 :=
  C6_allocate_bounds wEmpty 8 8 3 4096 0 4344
    (ListState.mk 256 1 (some 0) (some 0) none
      [ChunkState.mk 256 0 4096 4344 none none true false 0] [] [])
    (empty_inv 256 wEmpty rfl) rfl (by decide) (by decide) rfl

/-- C7: arena allocation routes a layout of size `size` to the chunk list
at index `i = max(0, ceil(log2 size) - log2 MIN_BLOCK_SIZE)` (truncated
subtraction on `Nat` is exactly the `max(0, ·)`), whose chunks have size
`MIN_BLOCK_SIZE * 2 ^ i`; when fewer than `i + 1` lists exist the vector
is grown to exactly length `i + 1` by appending the missing lists in
ascending index order, and the delegation index is `i` in both cases. -/
theorem C7_arena_routing (a : List Nat) (size : Nat)
    (h : size ≤ 2 ^ 63) :
    size_to_index size = Nat.clog 2 size - Nat.log 2 MIN_BLOCK_SIZE ∧
    index_to_chunk_size (size_to_index size) =
      MIN_BLOCK_SIZE * 2 ^ size_to_index size ∧
    (Arena.list_for_size a size).1 = size_to_index size ∧
    (size_to_index size < a.length →
      (Arena.list_for_size a size).2 = a) ∧
    (a.length ≤ size_to_index size →
      (Arena.list_for_size a size).2 =
        a ++ (List.range' a.length
          (size_to_index size + 1 - a.length)).map index_to_chunk_size ∧
      (Arena.list_for_size a size).2.length = size_to_index size + 1) ∧
    (∀ j, a.length ≤ j → j < (Arena.list_for_size a size).2.length →
      (Arena.list_for_size a size).2[j]? =
        some (index_to_chunk_size j)) := by
  refine ⟨size_to_index_eq size h, index_to_chunk_size_eq _, ?_, ?_, ?_, ?_⟩
  · unfold Arena.list_for_size
    by_cases hlt : size_to_index size < a.length
    · rw [if_pos hlt]
    · rw [if_neg hlt]
  · intro hlt
    unfold Arena.list_for_size
    rw [if_pos hlt]
  · intro hle
    unfold Arena.list_for_size
    rw [if_neg (by omega)]
    refine ⟨rfl, ?_⟩
    simp [Arena.reserve_next]
    omega
  · intro j hj hjlen
    unfold Arena.list_for_size at hjlen ⊢
    by_cases hlt : size_to_index size < a.length
    · rw [if_pos hlt] at hjlen ⊢
      have hjlen' : j < a.length := hjlen
      exact absurd hjlen' (by omega)
    · rw [if_neg hlt] at hjlen ⊢
      simp only [Arena.reserve_next, List.length_append,
        List.length_map, List.length_range'] at hjlen
      rw [Arena.reserve_next, List.getElem?_append_right (by omega)]
      rw [List.getElem?_map]
      rw [List.getElem?_range' _ _
        (show j - a.length < size_to_index size + 1 - a.length by omega)]
      have hjj : a.length + 1 * (j - a.length) = j := by omega
      rw [hjj]
      rfl

theorem C7_arena_routing_witness :
    size_to_index 1000 = Nat.clog 2 1000 - Nat.log 2 MIN_BLOCK_SIZE ∧
    index_to_chunk_size (size_to_index 1000) =
      MIN_BLOCK_SIZE * 2 ^ size_to_index 1000 ∧
    (Arena.list_for_size [256] 1000).1 = size_to_index 1000 ∧
    (size_to_index 1000 < [256].length →
      (Arena.list_for_size [256] 1000).2 = [256]) ∧
    ([256].length ≤ size_to_index 1000 →
      (Arena.list_for_size [256] 1000).2 =
        [256] ++ (List.range' [256].length
          (size_to_index 1000 + 1 - [256].length)).map
            index_to_chunk_size ∧
      (Arena.list_for_size [256] 1000).2.length =
        size_to_index 1000 + 1) ∧
    (∀ j, [256].length ≤ j →
      j < (Arena.list_for_size [256] 1000).2.length →
      (Arena.list_for_size [256] 1000).2[j]? =
        some (index_to_chunk_size j)) :=
  C7_arena_routing [256] 1000 (by norm_num)

end Arena64
